import Mathlib

/-!
Shallow embedding of the NyxNet game-server wire-protocol core
(`src/protocol/VarInt.ts`, `VarLong.ts`, `ProtocolReader.ts`, `ProtocolWriter.ts`,
`Checksum.ts`, `Cipher.ts`, `Packet.ts`, the WebSocket engine `src/websocket/nyx-ws.ts`
and the bridge `src/websocket-bridge.ts`), together with proofs about the
claims of the specification.

Modelling conventions:
* A Node `Buffer` is a `List Nat` of byte values; a store into a buffer cell
  truncates with `% 256`, exactly as the runtime keeps only the low 8 bits.
* A JS string is carried as the list of its UTF-8 bytes.
* JS numbers occurring as protocol values are either mathematical integers
  (`PVal.vint`, faithful for the integer-valued f64 range used by the codec)
  or 32-bit float bit patterns (`PVal.vfloat`); see `PVal` below.
* Exceptions become `Except` values; the distinct JS error kinds
  (`Buffer underflow`, Node's out-of-range error from the fixed-width
  `readInt16BE`-style accessors, `Unknown type`) become the constructors
  of `DecErr`.
* Recursive value decoding carries an explicit fuel argument that only bounds
  recursion depth; the JS original is unbounded.  Every theorem supplies
  enough fuel (one unit per decoded node suffices, and `Packet.parse` uses
  `buffer.length + 1`, which is always enough because every decoded node
  consumes at least one byte of input).
-/

namespace NyxNet

/-- Failure modes of the binary reader: `underflow` models the thrown
`Buffer underflow` error, `rangeError` models the Node range error raised by
the bounds-checked fixed-width accessors (`readInt16BE`, `readInt32BE`,
`readFloatBE`, `readDoubleBE`), and `unknownType t` models the
`Unknown type: t` error of `ProtocolReader.readValue`. -/
inductive DecErr where
  | underflow
  | rangeError
  | unknownType (tag : Nat)
deriving DecidableEq, Repr

mutual
/-- Model of the `ProtocolValue` union of `src/protocol/types.ts`.  A JS number
is represented as `vint i` when it is integer-valued (`Number.isInteger`),
and as `vfloat bits` (its 32-bit IEEE-754 big-endian bit pattern) when it is a
non-integer value exactly representable in 32-bit floats — the only numbers the
float path of the codec transports losslessly.  `vdouble bits` carries the
64-bit pattern produced by the decode-only `DOUBLE` tag; the JS encoder never
emits that tag (its number classification always picks an integer or float
encoding), and no theorem below ever encodes a `vdouble`.  Objects are ordered
key/value sequences (`vmap`), since JS objects preserve insertion order; a
`Vec2`/`Vec3` is structurally an object with keys `x`, `y` (and `z`). -/
inductive PVal where
  | vnull
  | vbool (b : Bool)
  | vint (i : Int)
  | vfloat (bits : Nat)
  | vdouble (bits : Nat)
  | vstr (s : List Nat)
  | vbytes (data : List Nat)
  | varr (items : PList)
  | vmap (entries : PEntries)

/-- Ordered sequence of protocol values (a JS array).  A separate mutual
inductive rather than `List PVal`, so that all recursions stay structural. -/
inductive PList where
  | nil
  | cons (head : PVal) (tail : PList)

/-- Ordered key/value entries of a JS object; keys are UTF-8 byte lists. -/
inductive PEntries where
  | nil
  | cons (key : List Nat) (val : PVal) (tail : PEntries)
end

/-- Number of values in a `PList` (the JS `value.length` of an array). -/
def PList.length : PList → Nat
  | .nil => 0
  | .cons _ t => PList.length t + 1

/-- Number of entries (the JS `Object.keys(obj).length`). -/
def PEntries.length : PEntries → Nat
  | .nil => 0
  | .cons _ _ t => PEntries.length t + 1

/-- Concatenation of entry sequences. -/
def PEntries.append : PEntries → PEntries → PEntries
  | .nil, e => e
  | .cons k v t, e => .cons k v (PEntries.append t e)

/-- The keys of an entry sequence, in order. -/
def PEntries.keys : PEntries → List (List Nat)
  | .nil => []
  | .cons k _ t => k :: PEntries.keys t

/-- JS property lookup `obj[key]` on an ordered entry list (first match). -/
def lookupEntry : PEntries → List Nat → Option PVal
  | .nil, _ => none
  | .cons k v t, key => if k = key then some v else lookupEntry t key

/-- JS assignment `map[key] = value`: an existing key keeps its position and is
overwritten, a new key is appended.  Models the update in
`ProtocolReader.readMap`. -/
def insertJS : PEntries → List Nat → PVal → PEntries
  | .nil, k, v => .cons k v .nil
  | .cons k0 v0 t, k, v =>
      if k0 = k then .cons k0 v t else .cons k0 v0 (insertJS t k v)

/-- Loop body of `VarInt.encode` (`src/protocol/VarInt.ts`): 7-bit groups,
least significant first, high bit set on every group but the last
(`value & 0x7f` is `% 128`, `value >>> 7` is `/ 128`).  The `fuel` argument
makes the loop structurally recursive; `fuel ≥ value` always suffices because
the value shrinks by a factor 128 each round. -/
def varIntEncodeAux : Nat → Nat → List Nat
  | 0, value => [value % 128]
  | fuel + 1, value =>
      if 127 < value then (value % 128 + 128) :: varIntEncodeAux fuel (value / 128)
      else [value % 128]

/-- `VarInt.encode`.  The source coerces a negative input to unsigned with
`>>> 0`; the codec only ever encodes lengths and counts, so the domain here is
`Nat`. -/
def VarInt.encode (value : Nat) : List Nat := varIntEncodeAux value value

/-- Loop body of `VarLong.encode` (`src/protocol/VarLong.ts`), which works on
JS `BigInt`s: `bigValue & 0x7fn` is the Euclidean remainder `% 128` (BigInt
bitwise operations act on the infinite two's complement form) and
`bigValue >>= 7n` is the flooring division `Int.fdiv · 128`.  For a negative
input the `while (bigValue > 0x7fn)` guard is false at once and the encoder
emits the single byte `(value % 128)` — the misencoding of negative longs the
specification flags. -/
def varLongEncodeAux : Nat → Int → List Nat
  | 0, v => [(v % 128).toNat]
  | fuel + 1, v =>
      if 127 < v then ((v % 128).toNat + 128) :: varLongEncodeAux fuel (Int.fdiv v 128)
      else [(v % 128).toNat]

/-- `VarLong.encode`. -/
def VarLong.encode (v : Int) : List Nat := varLongEncodeAux v.toNat v

/-- Shared model of `VarInt.decode` and `VarLong.decode` operating on the
unconsumed suffix of the buffer: accumulate 7-bit groups while the
continuation bit (`byte & 0x80`) is set, fail with `underflow` at the end of
the buffer.  Returns `(value, bytesRead)`.  The source accumulates with
`value |= (byte & 0x7f) << shift`; the groups occupy disjoint bit ranges, so
the bitwise-or is addition of `group * 2^shift`, which is the form used here
(`VarLong.decode` computes on exact BigInts; its final `Number(value)`
conversion is exact on every value that a JS integer can produce). -/
def varDecode : List Nat → Except DecErr (Nat × Nat)
  | [] => .error .underflow
  | b :: rest =>
      if b &&& 128 ≠ 0 then
        match varDecode rest with
        | .ok (v, n) => .ok (b % 128 + 128 * v, n + 1)
        | .error e => .error e
      else .ok (b % 128, 1)

/-- Big-endian bytes of a 16-bit store (`writeInt16BE` buffer contents). -/
def be2 (u : Nat) : List Nat := [u / 256 % 256, u % 256]

/-- Big-endian bytes of a 32-bit store (`writeInt32BE` / `writeUInt32BE` /
`writeFloatBE` buffer contents). -/
def be4 (u : Nat) : List Nat :=
  [u / 16777216 % 256, u / 65536 % 256, u / 256 % 256, u % 256]

/-- Big-endian bytes of a 64-bit store (`writeDoubleBE` buffer contents). -/
def be8 (u : Nat) : List Nat := be4 (u / 4294967296) ++ be4 u

/-- `ProtocolReader.readByte`: one byte or `Buffer underflow`.  The reader
state is the unconsumed suffix of the buffer. -/
def ProtocolReader.readByte : List Nat → Except DecErr (Nat × List Nat)
  | [] => .error .underflow
  | b :: rest => .ok (b, rest)

/-- `ProtocolReader.read(length)`: a strict slice, `Buffer underflow` when
fewer than `len` bytes remain. -/
def ProtocolReader.read (len : Nat) (buf : List Nat) :
    Except DecErr (List Nat × List Nat) :=
  if len ≤ buf.length then .ok (buf.take len, buf.drop len) else .error .underflow

/-- `ProtocolReader.readVarInt` / `readVarLong`: delegate to the var-length
decoder and advance the reader by `bytesRead`. -/
def ProtocolReader.readVarInt (buf : List Nat) : Except DecErr (Nat × List Nat) :=
  match varDecode buf with
  | .ok (v, n) => .ok (v, buf.drop n)
  | .error e => .error e

/-- `ProtocolReader.readShort`: Node's `readInt16BE` checks that two bytes are
available and otherwise throws a range error (not `Buffer underflow`); the
value is big-endian two's complement. -/
def ProtocolReader.readShort (buf : List Nat) : Except DecErr (Int × List Nat) :=
  if 2 ≤ buf.length then
    let u := buf.getD 0 0 * 256 + buf.getD 1 0
    .ok (if u < 32768 then (u : Int) else (u : Int) - 65536, buf.drop 2)
  else .error .rangeError

/-- `ProtocolReader.readInt`: `readInt32BE`, same bounds behaviour. -/
def ProtocolReader.readInt (buf : List Nat) : Except DecErr (Int × List Nat) :=
  if 4 ≤ buf.length then
    let u := buf.getD 0 0 * 16777216 + buf.getD 1 0 * 65536 +
      buf.getD 2 0 * 256 + buf.getD 3 0
    .ok (if u < 2147483648 then (u : Int) else (u : Int) - 4294967296, buf.drop 4)
  else .error .rangeError

/-- `ProtocolReader.readFloat`: `readFloatBE`, returned as the 32-bit pattern. -/
def ProtocolReader.readFloat (buf : List Nat) : Except DecErr (Nat × List Nat) :=
  if 4 ≤ buf.length then
    .ok (buf.getD 0 0 * 16777216 + buf.getD 1 0 * 65536 +
      buf.getD 2 0 * 256 + buf.getD 3 0, buf.drop 4)
  else .error .rangeError

/-- `ProtocolReader.readDouble`: `readDoubleBE`, returned as the 64-bit
pattern. -/
def ProtocolReader.readDouble (buf : List Nat) : Except DecErr (Nat × List Nat) :=
  if 8 ≤ buf.length then
    .ok ((buf.take 8).foldl (fun acc b => acc * 256 + b) 0, buf.drop 8)
  else .error .rangeError

/-- `ProtocolReader.readString`: VarInt length prefix, then
`buffer.toString('utf8', offset, offset + length)`.  Node's `toString` clamps
the range to the buffer, so a declared length larger than the remaining bytes
silently yields the truncated string while the offset still advances past the
end — there is no underflow check on this path. -/
def ProtocolReader.readString (buf : List Nat) :
    Except DecErr (List Nat × List Nat) :=
  match varDecode buf with
  | .error e => .error e
  | .ok (len, n) =>
      let rest := buf.drop n
      if len = 0 then .ok ([], rest)
      else .ok (rest.take len, rest.drop len)

/-- `ProtocolReader.readBytes`: VarInt length prefix, then a strict
`ProtocolReader.read` (which does underflow-check, unlike `readString`). -/
def ProtocolReader.readBytes (buf : List Nat) :
    Except DecErr (List Nat × List Nat) :=
  match varDecode buf with
  | .error e => .error e
  | .ok (len, n) =>
      let rest := buf.drop n
      if len = 0 then .ok ([], rest)
      else ProtocolReader.read len rest

/-- The byte list of the JS string `"x"`. -/
def xKey : List Nat := [120]

/-- The byte list of the JS string `"y"`. -/
def yKey : List Nat := [121]

/-- The byte list of the JS string `"z"`. -/
def zKey : List Nat := [122]

mutual
/-- `ProtocolReader.readValue`: one tag byte, then the value.  Tags follow the
`TYPE` enum of `src/protocol/types.ts` (NULL 0, BOOL 1, BYTE 2, SHORT 3,
INT 4, LONG 5, FLOAT 6, DOUBLE 7, STRING 8, BYTES 9, ARRAY 10, MAP 11,
VEC2 12, VEC3 13); any other tag raises `Unknown type`.  `BYTE` reads an
unsigned byte (so a negative byte written in two's complement does not decode
back to itself).  `VEC2`/`VEC3` build objects with keys `x`, `y`(, `z`). -/
def readValueF : Nat → List Nat → Except DecErr (PVal × List Nat)
  | 0, _ => .error .underflow
  | fuel + 1, buf =>
      match ProtocolReader.readByte buf with
      | .error e => .error e
      | .ok (t, r) =>
        match t with
        | 0 => .ok (.vnull, r)
        | 1 =>
            match ProtocolReader.readByte r with
            | .ok (b, r2) => .ok (.vbool (b != 0), r2)
            | .error e => .error e
        | 2 =>
            match ProtocolReader.readByte r with
            | .ok (b, r2) => .ok (.vint b, r2)
            | .error e => .error e
        | 3 =>
            match ProtocolReader.readShort r with
            | .ok (i, r2) => .ok (.vint i, r2)
            | .error e => .error e
        | 4 =>
            match ProtocolReader.readInt r with
            | .ok (i, r2) => .ok (.vint i, r2)
            | .error e => .error e
        | 5 =>
            match ProtocolReader.readVarInt r with
            | .ok (v, r2) => .ok (.vint v, r2)
            | .error e => .error e
        | 6 =>
            match ProtocolReader.readFloat r with
            | .ok (bits, r2) => .ok (.vfloat bits, r2)
            | .error e => .error e
        | 7 =>
            match ProtocolReader.readDouble r with
            | .ok (bits, r2) => .ok (.vdouble bits, r2)
            | .error e => .error e
        | 8 =>
            match ProtocolReader.readString r with
            | .ok (s, r2) => .ok (.vstr s, r2)
            | .error e => .error e
        | 9 =>
            match ProtocolReader.readBytes r with
            | .ok (d, r2) => .ok (.vbytes d, r2)
            | .error e => .error e
        | 10 =>
            match ProtocolReader.readVarInt r with
            | .ok (count, r2) =>
                match readListF fuel count r2 with
                | .ok (items, r3) => .ok (.varr items, r3)
                | .error e => .error e
            | .error e => .error e
        | 11 =>
            match ProtocolReader.readVarInt r with
            | .ok (count, r2) =>
                match readEntriesF fuel count .nil r2 with
                | .ok (entries, r3) => .ok (.vmap entries, r3)
                | .error e => .error e
            | .error e => .error e
        | 12 =>
            match ProtocolReader.readFloat r with
            | .ok (p1, r2) =>
                match ProtocolReader.readFloat r2 with
                | .ok (p2, r3) =>
                    .ok (.vmap (.cons xKey (.vfloat p1)
                      (.cons yKey (.vfloat p2) .nil)), r3)
                | .error e => .error e
            | .error e => .error e
        | 13 =>
            match ProtocolReader.readFloat r with
            | .ok (p1, r2) =>
                match ProtocolReader.readFloat r2 with
                | .ok (p2, r3) =>
                    match ProtocolReader.readFloat r3 with
                    | .ok (p3, r4) =>
                        .ok (.vmap (.cons xKey (.vfloat p1)
                          (.cons yKey (.vfloat p2)
                          (.cons zKey (.vfloat p3) .nil))), r4)
                    | .error e => .error e
                | .error e => .error e
            | .error e => .error e
        | other => .error (.unknownType other)

/-- Loop of `ProtocolReader.readArray`: `count` recursive `readValue`s. -/
def readListF : Nat → Nat → List Nat → Except DecErr (PList × List Nat)
  | _, 0, buf => .ok (.nil, buf)
  | 0, _ + 1, _ => .error .underflow
  | fuel + 1, count + 1, buf =>
      match readValueF fuel buf with
      | .ok (v, r) =>
          match readListF fuel count r with
          | .ok (items, r2) => .ok (.cons v items, r2)
          | .error e => .error e
      | .error e => .error e

/-- Loop of `ProtocolReader.readMap`: `count` iterations of
`readString` / `readValue` / `map[key] = value`. -/
def readEntriesF : Nat → Nat → PEntries → List Nat →
    Except DecErr (PEntries × List Nat)
  | _, 0, acc, buf => .ok (acc, buf)
  | 0, _ + 1, _, _ => .error .underflow
  | fuel + 1, count + 1, acc, buf =>
      match ProtocolReader.readString buf with
      | .ok (key, r) =>
          match readValueF fuel r with
          | .ok (v, r2) => readEntriesF fuel count (insertJS acc key v) r2
          | .error e => .error e
      | .error e => .error e
end

/-- `ProtocolReader.readArray`: VarInt count, then the element loop. -/
def ProtocolReader.readArray (fuel : Nat) (buf : List Nat) :
    Except DecErr (PList × List Nat) :=
  match ProtocolReader.readVarInt buf with
  | .ok (count, r) => readListF fuel count r
  | .error e => .error e

/-- `ProtocolReader.readMap`: VarInt count, then the entry loop starting from
an empty object. -/
def ProtocolReader.readMap (fuel : Nat) (buf : List Nat) :
    Except DecErr (PEntries × List Nat) :=
  match ProtocolReader.readVarInt buf with
  | .ok (count, r) => readEntriesF fuel count .nil r
  | .error e => .error e

/-- `ProtocolWriter.writeString`: a falsy string (here only the empty string;
`null`/`undefined` become `PVal.vnull` earlier) writes a zero length, anything
else a VarInt byte length followed by the UTF-8 bytes. -/
def ProtocolWriter.writeString (s : List Nat) : List Nat :=
  if s = [] then VarInt.encode 0
  else VarInt.encode s.length ++ s

/-- `ProtocolWriter.writeBytes`: VarInt length then the raw bytes (an empty
`Buffer` is truthy in JS and takes the same path, producing the same single
zero-length byte as the falsy branch). -/
def ProtocolWriter.writeBytes (b : List Nat) : List Nat :=
  VarInt.encode b.length ++ b

/-- The 32-bit float pattern Node's `writeFloatBE` stores for a protocol value
reached through the Vec2/Vec3 branch of `ProtocolWriter.writeValue`
(`writeFloat(obj.x)` etc.).  For a `vfloat` the f64 value is exactly
f32-representable and the stored pattern is its own pattern.  Every other case
would involve f64-to-f32 rounding or JS numeric coercion, which this embedding
does not model bit-exactly; no theorem below ever encodes such a value through
this branch (the `goodVal` predicate only admits float-valued vector shapes). -/
def f32PatternOf : PVal → Nat
  | .vfloat bits => bits % 4294967296
  | _ => 0

mutual
/-- `ProtocolWriter.writeValue` (`src/protocol/ProtocolWriter.ts`).  Number
classification in source order: integers outside the signed 32-bit range go to
`LONG` (VarLong), then `[-128,127]` to `BYTE` (`writeByte` keeps the low 8
bits, i.e. two's complement `% 256`), then `[-32768,32767]` to `SHORT`, else
`INT`; non-integers go to `FLOAT`.  An object with both `x` and `y` properties
defined is written as `VEC2` (as `VEC3` when `z` is also defined), otherwise
as a `MAP` of its entries in insertion order. -/
def writeValue : PVal → List Nat
  | .vnull => [0]
  | .vbool b => [1, if b then 1 else 0]
  | .vint i =>
      if 2147483647 < i ∨ i < -2147483648 then 5 :: VarLong.encode i
      else if -128 ≤ i ∧ i ≤ 127 then [2, (i % 256).toNat]
      else if -32768 ≤ i ∧ i ≤ 32767 then 3 :: be2 (i % 65536).toNat
      else 4 :: be4 (i % 4294967296).toNat
  | .vfloat bits => 6 :: be4 bits
  | .vdouble bits => 7 :: be8 bits
  | .vstr s => 8 :: ProtocolWriter.writeString s
  | .vbytes b => 9 :: ProtocolWriter.writeBytes b
  | .varr items => 10 :: (VarInt.encode items.length ++ writeList items)
  | .vmap entries =>
      match lookupEntry entries xKey, lookupEntry entries yKey,
          lookupEntry entries zKey with
      | some vx, some vy, some vz =>
          13 :: (be4 (f32PatternOf vx) ++ be4 (f32PatternOf vy) ++
            be4 (f32PatternOf vz))
      | some vx, some vy, none =>
          12 :: (be4 (f32PatternOf vx) ++ be4 (f32PatternOf vy))
      | _, _, _ =>
          11 :: (VarInt.encode entries.length ++ writeEntries entries)

/-- Per-element loop of the `ARRAY` branch of `writeValue`. -/
def writeList : PList → List Nat
  | .nil => []
  | .cons v t => writeValue v ++ writeList t

/-- Per-entry loop of the `MAP` branch of `writeValue` and of
`ProtocolWriter.writeMap`: `writeString(key); writeValue(obj[key])` for each
key in insertion order. -/
def writeEntries : PEntries → List Nat
  | .nil => []
  | .cons k v t => ProtocolWriter.writeString k ++ writeValue v ++ writeEntries t
end

/-- `ProtocolWriter.writeMap`: VarInt entry count, then the entries.  Unlike
the object branch of `writeValue`, the top-level map writer performs no
Vec2/Vec3 detection. -/
def ProtocolWriter.writeMap (entries : PEntries) : List Nat :=
  VarInt.encode entries.length ++ writeEntries entries

/-- `Checksum.calculate` (`src/protocol/Checksum.ts`): running byte sum kept
to 8 bits, finally XORed with `0xAA = 170`. -/
def Checksum.calculate (buf : List Nat) : Nat :=
  (buf.foldl (fun sum b => (sum + b) % 256) 0) ^^^ 170

/-- `Checksum.verify`: recompute and compare. -/
def Checksum.verify (buf : List Nat) (expected : Nat) : Bool :=
  Checksum.calculate buf == expected

/-- Byte loop of `Cipher.encrypt` (`src/protocol/Cipher.ts`):
`result[i] = buffer[i] ^ key ^ (i & 0xff)`, stored into a fresh buffer
(hence `% 256`). -/
def cipherStream (key : Nat) : Nat → List Nat → List Nat
  | _, [] => []
  | i, b :: rest => ((b ^^^ key ^^^ i % 256) % 256) :: cipherStream key (i + 1) rest

/-- `Cipher.encrypt` with explicit key (the constructor default is `0x5e`). -/
def Cipher.encrypt (key : Nat) (buf : List Nat) : List Nat := cipherStream key 0 buf

/-- `Cipher.decrypt` is literally `encrypt` in the source. -/
def Cipher.decrypt (key : Nat) (buf : List Nat) : List Nat := Cipher.encrypt key buf

/-- The default cipher key `0x5e` used by `Packet.create` / `Packet.parse`
(both construct `new Cipher()`). -/
def defaultCipherKey : Nat := 94

/-- Failure modes of `Packet.parse`; the reader errors are embedded with
`dec` (the bridge recognises recoverable underflow by the error message
`Buffer underflow`, i.e. exactly `dec .underflow`). -/
inductive ParseErr where
  | invalidMagic
  | unsupportedVersion
  | checksumMismatch
  | dec (e : DecErr)
deriving DecidableEq, Repr

/-- Embed reader failures into parse failures. -/
def liftDec {α : Type} : Except DecErr α → Except ParseErr α
  | .ok a => .ok a
  | .error e => .error (.dec e)

/-- `Packet.create` (`src/protocol/Packet.ts`): magic `0x42 0x4e`, version 1,
flags (bit 0 = encrypted), opcode byte, VarInt length of the (possibly
ciphered) `writeMap` payload, the payload, and a trailing checksum over
everything written so far. -/
def Packet.create (opcode : Nat) (data : PEntries) (encrypt : Bool) : List Nat :=
  let header := [66, 78, 1, if encrypt then 1 else 0, opcode % 256]
  let payloadPlain := ProtocolWriter.writeMap data
  let payload := if encrypt then Cipher.encrypt defaultCipherKey payloadPlain
    else payloadPlain
  let packetData := header ++ VarInt.encode payload.length ++ payload
  packetData ++ [Checksum.calculate packetData % 256]

/-- `Packet.parse`: sequential reads in source order; the checksum is verified
against `buffer.slice(0, buffer.length - 1)`, i.e. the whole input buffer less
its final byte — not just the bytes of the packet being parsed.  The payload
map is decoded from a fresh reader over the payload slice; the fuel
`buffer.length + 1` always suffices, as every decoded node consumes at least
one payload byte. -/
def Packet.parse (buffer : List Nat) : Except ParseErr (Nat × PEntries × Bool) := do
  let (m1, r1) ← liftDec (ProtocolReader.readByte buffer)
  let (m2, r2) ← liftDec (ProtocolReader.readByte r1)
  if m1 ≠ 66 ∨ m2 ≠ 78 then throw .invalidMagic
  else do
    let (version, r3) ← liftDec (ProtocolReader.readByte r2)
    if version ≠ 1 then throw .unsupportedVersion
    else do
      let (flags, r4) ← liftDec (ProtocolReader.readByte r3)
      let isEncrypted := flags &&& 1 != 0
      let (opcode, r5) ← liftDec (ProtocolReader.readByte r4)
      let (payloadLength, r6) ← liftDec (ProtocolReader.readVarInt r5)
      let (payloadRaw, r7) ← liftDec (ProtocolReader.read payloadLength r6)
      let payload := if isEncrypted then Cipher.decrypt defaultCipherKey payloadRaw
        else payloadRaw
      let (checksum, _) ← liftDec (ProtocolReader.readByte r7)
      let dataToVerify := buffer.take (buffer.length - 1)
      if ¬ Checksum.verify dataToVerify checksum then throw .checksumMismatch
      else do
        let (data, _) ← liftDec (ProtocolReader.readMap (buffer.length + 1) payload)
        pure (opcode, data, isEncrypted)

/-- The `while (tcpBuffer.length >= 6)` loop of the bridge's TCP data handler
(`src/websocket-bridge.ts`): parse the whole buffer; on success forward
`(opcode, data)` and set the buffer to empty (not just the consumed bytes!);
on `Buffer underflow` break and keep the buffer; on any other error clear the
buffer and break.  The fuel only bounds loop iterations — every arm either
breaks or empties the buffer, so any fuel of at least two reproduces the JS
loop exactly. -/
def bridgeLoop : Nat → List Nat → List (Nat × PEntries) × List Nat
  | 0, buf => ([], buf)
  | fuel + 1, buf =>
      if 6 ≤ buf.length then
        match Packet.parse buf with
        | .ok (op, data, _) =>
            let next := bridgeLoop fuel []
            ((op, data) :: next.1, next.2)
        | .error e => if e = .dec .underflow then ([], buf) else ([], [])
      else ([], buf)

/-- The bridge's `tcpSocket.on('data')` handler: append the chunk to the
pending buffer and run the parse loop.  Returns the JSON messages forwarded to
the WebSocket client (as `(opcode, data)` pairs) and the new pending buffer. -/
def bridgeOnData (tcpBuffer incoming : List Nat) :
    List (Nat × PEntries) × List Nat :=
  bridgeLoop (tcpBuffer.length + incoming.length + 2) (tcpBuffer ++ incoming)

/-- A parsed WebSocket frame (`nyx-ws.ts`): FIN flag, 4-bit opcode, unmasked
payload bytes. -/
structure WSFrame where
  fin : Bool
  opcode : Nat
  payload : List Nat
deriving DecidableEq, Repr

/-- The masking loop `payload[i] ^= maskingKey[i % 4]` (used both to mask in
`sendFrame` and to unmask in `handleData`; results are stored into buffer
cells, hence `% 256`). -/
def maskWith (key : List Nat) : Nat → List Nat → List Nat
  | _, [] => []
  | i, b :: rest => ((b ^^^ key.getD (i % 4) 0) % 256) :: maskWith key (i + 1) rest

/-- `SocketContainer.sendFrame` (`nyx-ws.ts`): FIN always set
(`frame[0] = 0x80 | opcode`), 7-bit/16-bit/64-bit length encoding (the 64-bit
form writes a zero high word and requires the length to fit 32 bits), then
either the masking key and masked payload, or the raw payload.  The random
`crypto.randomBytes(4)` masking key is passed in as `maskingKey`. -/
def sendFrame (opcode : Nat) (payload : List Nat) (masked : Bool)
    (maskingKey : List Nat) : List Nat :=
  let n := payload.length
  let b0 := (128 ||| opcode) % 256
  let header :=
    if n < 126 then [b0, ((if masked then 128 else 0) ||| n) % 256]
    else if n < 65536 then
      [b0, ((if masked then 128 else 0) ||| 126) % 256] ++ be2 n
    else [b0, ((if masked then 128 else 0) ||| 127) % 256] ++ be4 0 ++ be4 n
  header ++ (if masked then maskingKey ++ maskWith maskingKey 0 payload
    else payload)

/-- Opcode chosen by `SocketContainer.send` in WebSocket mode: TEXT (1) for a
string argument, BINARY (2) for a buffer.  `send` then calls
`sendFrame(opcode, data)` with the default `masked = false`. -/
def sendOpcode (isString : Bool) : Nat := if isString then 1 else 2

/-- Unsigned big-endian 16-bit read at index `i` (`readUInt16BE`). -/
def readU16at (buf : List Nat) (i : Nat) : Nat :=
  buf.getD i 0 * 256 + buf.getD (i + 1) 0

/-- Unsigned big-endian 32-bit read at index `i` (`readUInt32BE`). -/
def readU32at (buf : List Nat) (i : Nat) : Nat :=
  buf.getD i 0 * 16777216 + buf.getD (i + 1) 0 * 65536 +
    buf.getD (i + 2) 0 * 256 + buf.getD (i + 3) 0

/-- One iteration of the frame-parsing loop in `SocketContainer.handleData`:
`none` when fewer bytes than the header, extended length, masking key and
payload require are present (the JS code `return`s and waits for more data);
otherwise the parsed frame and the number of bytes consumed
(`offset + payloadLength`, the amount removed from the receive buffer). -/
def parseFrame (buf : List Nat) : Option (WSFrame × Nat) :=
  if buf.length < 2 then none
  else
    let byte1 := buf.getD 0 0
    let byte2 := buf.getD 1 0
    let fin := byte1 &&& 128 == 128
    let opcode := byte1 &&& 15
    let masked := byte2 &&& 128 == 128
    let len0 := byte2 &&& 127
    let step : Option (Nat × Nat) :=
      if len0 = 126 then
        if buf.length < 4 then none else some (readU16at buf 2, 4)
      else if len0 = 127 then
        if buf.length < 10 then none
        else some (readU32at buf 2 * 4294967296 + readU32at buf 6, 10)
      else some (len0, 2)
    match step with
    | none => none
    | some (payloadLength, offset0) =>
        let maskingKey := if masked then (buf.drop offset0).take 4 else []
        let offset := if masked then offset0 + 4 else offset0
        if buf.length < offset + payloadLength then none
        else
          let raw := (buf.drop offset).take payloadLength
          let payload := if masked then maskWith maskingKey 0 raw else raw
          some (⟨fin, opcode, payload⟩, offset + payloadLength)

/-- A message emitted to the application: TEXT payloads are delivered as
UTF-8 text (carried here as the byte list), anything else as raw bytes —
`SocketContainer.emitMessage`. -/
inductive WSMsg where
  | text (s : List Nat)
  | binary (data : List Nat)
deriving DecidableEq, Repr

/-- `SocketContainer.emitMessage`. -/
def emitMessage (opcode : Nat) (payload : List Nat) : WSMsg :=
  if opcode = 1 then .text payload else .binary payload

/-- `SocketContainer.handleFrame`: the fragmentation state machine.  The state
is the `fragments` array of `(opcode, payload)` pairs; the result is the new
state and the data messages emitted.  TEXT/BINARY with `fin=false` buffers the
frame; with `fin=true` and a non-empty accumulator it appends itself, emits
the concatenation tagged with its *own* opcode and clears the accumulator;
with an empty accumulator it emits immediately.  CONTINUATION always buffers
and, when `fin=true`, emits the concatenation tagged with the *first* buffered
frame's opcode.  CLOSE/PING/PONG never touch the accumulator and emit no data
message (their side effects — close echo, PONG reply, alive flag — live
outside this state machine). -/
def handleFrame (fragments : List (Nat × List Nat)) (fin : Bool) (opcode : Nat)
    (payload : List Nat) : List (Nat × List Nat) × List WSMsg :=
  if opcode = 1 ∨ opcode = 2 then
    if ¬ fin then (fragments ++ [(opcode, payload)], [])
    else if 0 < fragments.length then
      let all := fragments ++ [(opcode, payload)]
      ([], [emitMessage opcode (all.map Prod.snd).flatten])
    else (fragments, [emitMessage opcode payload])
  else if opcode = 0 then
    let all := fragments ++ [(opcode, payload)]
    if fin then
      ([], [emitMessage (all.headD (0, [])).fst (all.map Prod.snd).flatten])
    else (all, [])
  else (fragments, [])

/-- Liveness view of one tracked server-side connection: `tracked` is
membership in the server's `clients` set (destruction removes it), `isAlive`
is the `NyxWSConnection.isAlive` flag (constructor sets it `true`). -/
structure ConnLive where
  tracked : Bool
  isAlive : Bool
deriving DecidableEq, Repr

/-- Events that affect liveness: a tick of the server's `pingInterval` sweep,
or the receipt of a PONG frame (`NyxWSConnection.handlePong`). -/
inductive LiveEvent where
  | sweep
  | pong
deriving DecidableEq, Repr

/-- One step of the liveness state machine, returning the new state and
whether this step pinged the connection.  The sweep body
(`NyxWSServer.listen`): a client with `isAlive` false is destroyed and removed
from the set; otherwise its flag is cleared and it is pinged.  `handlePong`
sets the flag (a destroyed socket receives no further events, hence the
`tracked` guard). -/
def liveStep : ConnLive → LiveEvent → ConnLive × Bool
  | c, .sweep =>
      if ¬ c.tracked then (c, false)
      else if ¬ c.isAlive then ({ tracked := false, isAlive := c.isAlive }, false)
      else ({ tracked := true, isAlive := false }, true)
  | c, .pong =>
      if c.tracked then ({ c with isAlive := true }, false) else (c, false)

/-- Run the liveness machine over a sequence of events, collecting the ping
indicator of every step. -/
def liveRun (c : ConnLive) : List LiveEvent → ConnLive × List Bool
  | [] => (c, [])
  | e :: rest =>
      let s := liveStep c e
      let r := liveRun s.1 rest
      (r.1, s.2 :: r.2)

/-- All entries of a byte list are in range. -/
def allBytes (l : List Nat) : Bool := l.all (fun b => b < 256)

/-- True when the object has no `x` property or no `y` property, i.e. the
`writeValue` object branch encodes it as a `MAP` rather than a vector. -/
def isVecFree (entries : PEntries) : Bool :=
  !(lookupEntry entries xKey).isSome || !(lookupEntry entries yKey).isSome

/-- True on exactly the float-valued vector shapes `{x, y}` / `{x, y, z}`
whose vector encoding round-trips bit-exactly. -/
def isVecShape : PEntries → Bool
  | .cons k1 (.vfloat _) (.cons k2 (.vfloat _) .nil) =>
      k1 == xKey && k2 == yKey
  | .cons k1 (.vfloat _) (.cons k2 (.vfloat _) (.cons k3 (.vfloat _) .nil)) =>
      k1 == xKey && k2 == yKey && k3 == zKey
  | _ => false

/-- The keys of the entry sequence are pairwise distinct (JS `Object.keys`
never repeats a key). -/
def keysDistinct : PEntries → Bool
  | .nil => true
  | .cons k _ t => !((PEntries.keys t).contains k) && keysDistinct t

mutual
/-- The round-trippable fragment of the value model: integers either in
`[0, 2^53]` (BYTE/SHORT/INT/nonnegative LONG, all f64-exact) or in
`[-2^31, -129]` (negative SHORT/INT, stored in two's complement and read back
signed); float patterns fitting 32 bits; no decode-only doubles; strings and
byte blobs made of bytes; arrays of good values; maps with distinct byte-list
keys whose values are good and which either lack one of the `x`/`y` keys (so
they take the MAP encoding) or are exactly a float-valued vector shape.
Excluded and lossy in the code: integers in `[-128,-1]` (written in two's
complement, read back unsigned), integers below `-2^31` (misencoded by
`VarLong.encode`), and `x`/`y`-keyed maps of any other shape (forced through
the float vector encoding). -/
def goodVal : PVal → Bool
  | .vnull => true
  | .vbool _ => true
  | .vint i =>
      (decide (0 ≤ i) && decide (i ≤ 9007199254740992)) ||
        (decide (-2147483648 ≤ i) && decide (i ≤ -129))
  | .vfloat bits => bits < 4294967296
  | .vdouble _ => false
  | .vstr s => allBytes s
  | .vbytes b => allBytes b
  | .varr items => goodList items
  | .vmap entries =>
      goodEntriesVals entries && keysDistinct entries &&
        (isVecFree entries || isVecShape entries)

/-- All values of a `PList` are good. -/
def goodList : PList → Bool
  | .nil => true
  | .cons v t => goodVal v && goodList t

/-- All keys are byte lists and all values are good. -/
def goodEntriesVals : PEntries → Bool
  | .nil => true
  | .cons k v t => allBytes k && goodVal v && goodEntriesVals t
end

/-- Round-trippable top-level packet payload: the top-level `writeMap` does no
vector detection, so only distinct byte-list keys and good values are needed. -/
def goodPacketData (entries : PEntries) : Bool :=
  goodEntriesVals entries && keysDistinct entries

/-- The checksum comparison `Packet.parse` performs on a packet buffer: the
trailing byte is compared against `Checksum.calculate` of everything before it
(`Checksum.verify(buffer.slice(0, buffer.length - 1), checksum)`). -/
def packetChecksumOk (p : List Nat) : Bool :=
  Checksum.verify (p.take (p.length - 1)) (p.getD (p.length - 1) 0)

mutual
/-- Fuel needed by `readValueF` to decode this value: one unit per nesting
step of the reader loops. -/
def fsizeVal : PVal → Nat
  | .varr items => fsizeList items + 1
  | .vmap entries => fsizeEntries entries + 1
  | _ => 1

/-- Fuel needed by `readListF`. -/
def fsizeList : PList → Nat
  | .nil => 0
  | .cons v t => max (fsizeVal v) (fsizeList t) + 1

/-- Fuel needed by `readEntriesF`. -/
def fsizeEntries : PEntries → Nat
  | .nil => 0
  | .cons _ v t => max (fsizeVal v) (fsizeEntries t) + 1
end

/-! ### General byte and bit lemmas -/

theorem two_pow_eight : (256 : Nat) = 2 ^ 8 := by norm_num

theorem xor_mod256_left (a k : Nat) : (a % 256 ^^^ k) % 256 = (a ^^^ k) % 256 := by
  rw [two_pow_eight]
  apply Nat.eq_of_testBit_eq
  intro i
  simp only [Nat.testBit_mod_two_pow, Nat.testBit_xor]
  by_cases hi : i < 8 <;> simp [hi]

theorem xor_byte_involution (b k : Nat) (hb : b < 256) :
    ((b ^^^ k) % 256 ^^^ k) % 256 = b := by
  rw [xor_mod256_left, Nat.xor_assoc, Nat.xor_self, Nat.xor_zero,
    Nat.mod_eq_of_lt hb]

theorem xor_lt_256 (a b : Nat) (ha : a < 256) (hb : b < 256) : a ^^^ b < 256 := by
  rw [two_pow_eight] at *
  exact Nat.xor_lt_two_pow ha hb

theorem xor_170_injective {a b : Nat} (h : a ^^^ 170 = b ^^^ 170) : a = b := by
  have := congrArg (fun z => z ^^^ 170) h
  simpa [Nat.xor_assoc] using this

theorem allBytes_append (a b : List Nat) :
    allBytes (a ++ b) = (allBytes a && allBytes b) := by
  simp [allBytes, List.all_append]

theorem allBytes_getD (l : List Nat) (j : Nat) (h : allBytes l = true) :
    l.getD j 0 < 256 := by
  rcases Nat.lt_or_ge j l.length with hj | hj
  · rw [List.getD_eq_getElem l 0 hj]
    exact of_decide_eq_true ((List.all_eq_true.mp h) _ (List.getElem_mem hj))
  · rw [List.getD_eq_default l 0 hj]; norm_num

theorem allBytes_mem (l : List Nat) (b : Nat) (h : allBytes l = true)
    (hb : b ∈ l) : b < 256 :=
  of_decide_eq_true ((List.all_eq_true.mp h) _ hb)

/-! ### Cipher lemmas -/

theorem cipherStream_length (key : Nat) :
    ∀ (i : Nat) (l : List Nat), (cipherStream key i l).length = l.length := by
  intro i l
  induction l generalizing i with
  | nil => rfl
  | cons b t ih => simp [cipherStream, ih]

theorem cipherStream_involutive (key : Nat) :
    ∀ (l : List Nat) (i : Nat), allBytes l = true →
      cipherStream key i (cipherStream key i l) = l := by
  intro l
  induction l with
  | nil => intro i _; rfl
  | cons b t ih =>
      intro i h
      rw [allBytes] at h
      simp only [List.all_cons, Bool.and_eq_true] at h
      have hb : b < 256 := of_decide_eq_true h.1
      simp only [cipherStream]
      rw [Nat.xor_assoc, Nat.xor_assoc, xor_byte_involution b (key ^^^ i % 256) hb,
        ih (i + 1) h.2]

theorem cipher_encrypt_decrypt (key : Nat) (l : List Nat) (h : allBytes l = true) :
    Cipher.decrypt key (Cipher.encrypt key l) = l :=
  cipherStream_involutive key l 0 h

/-! ### Checksum lemmas -/

theorem checksum_foldl (l : List Nat) :
    ∀ s : Nat, s < 256 →
      List.foldl (fun sum b => (sum + b) % 256) s l = (s + l.sum) % 256 := by
  induction l with
  | nil => intro s h; simp [Nat.mod_eq_of_lt h]
  | cons b t ih =>
      intro s h
      simp only [List.foldl_cons, List.sum_cons]
      rw [ih ((s + b) % 256) (Nat.mod_lt _ (by norm_num)), Nat.mod_add_mod]
      ring_nf

theorem checksum_calculate_eq (l : List Nat) :
    Checksum.calculate l = (l.sum % 256) ^^^ 170 := by
  rw [Checksum.calculate, checksum_foldl l 0 (by norm_num)]
  norm_num

theorem checksum_calculate_lt (l : List Nat) : Checksum.calculate l < 256 := by
  rw [checksum_calculate_eq]
  exact xor_lt_256 _ _ (Nat.mod_lt _ (by norm_num)) (by norm_num)

theorem sum_set_getD (l : List Nat) (i b : Nat) (h : i < l.length) :
    (l.set i b).sum + l.getD i 0 = l.sum + b := by
  induction l generalizing i with
  | nil => simp at h
  | cons a t ih =>
      cases i with
      | zero => simp [List.set]; omega
      | succ j =>
          simp only [List.set, List.sum_cons, List.getD_cons_succ]
          have := ih j (by simpa using h)
          omega

/-! ### Var-length integer lemmas -/

theorem land_128_of_lt (m : Nat) (h : m < 128) : m &&& 128 = 0 := by
  revert h
  revert m
  decide

theorem add_128_land_128 (m : Nat) (h : m < 128) : (m + 128) &&& 128 = 128 := by
  revert h
  revert m
  decide

theorem varIntEncodeAux_length_pos (fuel n : Nat) :
    1 ≤ (varIntEncodeAux fuel n).length := by
  cases fuel with
  | zero => simp [varIntEncodeAux]
  | succ f =>
      rw [varIntEncodeAux]
      split <;> simp

theorem varIntEncodeAux_bytes (fuel : Nat) :
    ∀ n, allBytes (varIntEncodeAux fuel n) = true := by
  induction fuel with
  | zero => intro n; simp [varIntEncodeAux, allBytes]; omega
  | succ f ih =>
      intro n
      rw [varIntEncodeAux]
      split
      · simp only [allBytes, List.all_cons, Bool.and_eq_true]
        exact ⟨by simp; omega, ih (n / 128)⟩
      · simp [allBytes]; omega

theorem varIntEncodeAux_spec (fuel : Nat) :
    ∀ (n : Nat) (rest : List Nat), n ≤ fuel →
      varDecode (varIntEncodeAux fuel n ++ rest) =
        .ok (n, (varIntEncodeAux fuel n).length) := by
  induction fuel with
  | zero =>
      intro n rest hn
      interval_cases n
      simp [varIntEncodeAux, varDecode]
  | succ f ih =>
      intro n rest hn
      simp only [varIntEncodeAux]
      by_cases h127 : 127 < n
      · simp only [if_pos h127]
        have hmod : n % 128 < 128 := Nat.mod_lt _ (by norm_num)
        have hdiv : n / 128 ≤ f := by omega
        have hcont : (n % 128 + 128) &&& 128 ≠ 0 := by
          rw [add_128_land_128 _ hmod]
          norm_num
        simp only [List.cons_append, varDecode, if_pos hcont, List.length_cons,
          List.append_eq]
        rw [ih (n / 128) rest hdiv]
        have h1 : (n % 128 + 128) % 128 = n % 128 := by omega
        have h2 : n % 128 + 128 * (n / 128) = n := by
          have := Nat.mod_add_div n 128
          omega
        simp [h1, h2]
      · simp only [if_neg h127]
        have hmod : n % 128 = n := Nat.mod_eq_of_lt (by omega)
        simp [varDecode, hmod, land_128_of_lt n (by omega)]

theorem varDecode_encode (n : Nat) (rest : List Nat) :
    varDecode (VarInt.encode n ++ rest) = .ok (n, (VarInt.encode n).length) :=
  varIntEncodeAux_spec n n rest (le_refl n)

theorem readVarInt_encode (n : Nat) (rest : List Nat) :
    ProtocolReader.readVarInt (VarInt.encode n ++ rest) = .ok (n, rest) := by
  simp only [ProtocolReader.readVarInt, varDecode_encode, List.drop_left]

theorem varLongEncodeAux_eq_varIntEncodeAux (fuel : Nat) :
    ∀ i : Int, 0 ≤ i → varLongEncodeAux fuel i = varIntEncodeAux fuel i.toNat := by
  induction fuel with
  | zero =>
      intro i hi
      simp only [varLongEncodeAux, varIntEncodeAux]
      congr 1
      omega
  | succ f ih =>
      intro i hi
      obtain ⟨m, rfl⟩ : ∃ m : Nat, i = (m : Int) := ⟨i.toNat, by omega⟩
      simp only [varLongEncodeAux, varIntEncodeAux, Int.toNat_natCast]
      have hfd : Int.fdiv (m : Int) 128 = ((m / 128 : Nat) : Int) := by
        exact_mod_cast (Int.ofNat_fdiv m 128).symm
      have hm : ((m : Int) % 128).toNat = m % 128 := by omega
      by_cases h : 127 < m
      · rw [if_pos (show (127 : Int) < (m : Int) by exact_mod_cast h), if_pos h,
          hfd, ih _ (by positivity), Int.toNat_natCast, hm]
      · rw [if_neg (show ¬ (127 : Int) < (m : Int) by exact_mod_cast h), if_neg h, hm]

theorem varLong_encode_spec (i : Int) (h : 0 ≤ i) (rest : List Nat) :
    varDecode (VarLong.encode i ++ rest) =
      .ok (i.toNat, (VarLong.encode i).length) := by
  rw [VarLong.encode, varLongEncodeAux_eq_varIntEncodeAux _ i h]
  exact varIntEncodeAux_spec i.toNat i.toNat rest (le_refl _)

theorem readVarInt_varLong (i : Int) (h : 0 ≤ i) (rest : List Nat) :
    ProtocolReader.readVarInt (VarLong.encode i ++ rest) = .ok (i.toNat, rest) := by
  simp only [ProtocolReader.readVarInt, varLong_encode_spec i h, List.drop_left]

/-! ### Reader and writer primitive round trips -/

theorem readString_write (s : List Nat) (rest : List Nat) :
    ProtocolReader.readString (ProtocolWriter.writeString s ++ rest) =
      .ok (s, rest) := by
  rw [ProtocolWriter.writeString]
  by_cases hs : s = []
  · subst hs
    simp [VarInt.encode, varIntEncodeAux, ProtocolReader.readString, varDecode]
  · rw [if_neg hs, List.append_assoc]
    simp [ProtocolReader.readString, varDecode_encode, List.drop_left, hs]

theorem readBytes_write (b : List Nat) (rest : List Nat) :
    ProtocolReader.readBytes (ProtocolWriter.writeBytes b ++ rest) =
      .ok (b, rest) := by
  rw [ProtocolWriter.writeBytes, List.append_assoc]
  simp only [ProtocolReader.readBytes, varDecode_encode, List.drop_left]
  by_cases hb : b = []
  · subst hb; simp
  · rw [if_neg (by simpa using hb), ProtocolReader.read,
      if_pos (by simp), List.take_left, List.drop_left]

theorem VarInt.encode_length_pos (n : Nat) : 1 ≤ (VarInt.encode n).length :=
  varIntEncodeAux_length_pos n n

theorem writeString_length_pos (s : List Nat) :
    1 ≤ (ProtocolWriter.writeString s).length := by
  rw [ProtocolWriter.writeString]
  split
  · exact VarInt.encode_length_pos 0
  · simp only [List.length_append]
    have := VarInt.encode_length_pos s.length
    omega

theorem readShort_write (i : Int) (hlo : -32768 ≤ i) (hhi : i ≤ 32767)
    (rest : List Nat) :
    ProtocolReader.readShort (be2 (i % 65536).toNat ++ rest) = .ok (i, rest) := by
  rw [be2]
  set u := (i % 65536).toNat with hu
  have hub : u < 65536 := by omega
  simp only [List.cons_append, List.nil_append, ProtocolReader.readShort,
    List.length_cons, List.getD_cons_zero, List.getD_cons_succ]
  rw [if_pos (by omega)]
  have hcomb : u / 256 % 256 * 256 + u % 256 = u := by omega
  rw [hcomb]
  have : (if u < 32768 then (u : Int) else (u : Int) - 65536) = i := by
    by_cases hs : u < 32768
    · rw [if_pos hs]; omega
    · rw [if_neg hs]; omega
  rw [this]
  simp

theorem readInt_write (i : Int) (hlo : -2147483648 ≤ i) (hhi : i ≤ 2147483647)
    (rest : List Nat) :
    ProtocolReader.readInt (be4 (i % 4294967296).toNat ++ rest) = .ok (i, rest) := by
  rw [be4]
  set u := (i % 4294967296).toNat with hu
  have hub : u < 4294967296 := by omega
  simp only [List.cons_append, List.nil_append, ProtocolReader.readInt,
    List.length_cons, List.getD_cons_zero, List.getD_cons_succ]
  rw [if_pos (by omega)]
  have hcomb : u / 16777216 % 256 * 16777216 + u / 65536 % 256 * 65536 +
      u / 256 % 256 * 256 + u % 256 = u := by omega
  rw [hcomb]
  have : (if u < 2147483648 then (u : Int) else (u : Int) - 4294967296) = i := by
    by_cases hs : u < 2147483648
    · rw [if_pos hs]; omega
    · rw [if_neg hs]; omega
  rw [this]
  simp

theorem readFloat_write (bits : Nat) (hb : bits < 4294967296) (rest : List Nat) :
    ProtocolReader.readFloat (be4 bits ++ rest) = .ok (bits, rest) := by
  rw [be4]
  simp only [List.cons_append, List.nil_append, ProtocolReader.readFloat,
    List.length_cons, List.getD_cons_zero, List.getD_cons_succ]
  rw [if_pos (by omega)]
  have hcomb : bits / 16777216 % 256 * 16777216 + bits / 65536 % 256 * 65536 +
      bits / 256 % 256 * 256 + bits % 256 = bits := by omega
  rw [hcomb]
  simp

/-! ### Masking lemmas -/

theorem maskWith_length (key : List Nat) :
    ∀ (i : Nat) (l : List Nat), (maskWith key i l).length = l.length := by
  intro i l
  induction l generalizing i with
  | nil => rfl
  | cons b t ih => simp [maskWith, ih]

theorem maskWith_involutive (key : List Nat) :
    ∀ (l : List Nat) (i : Nat), allBytes l = true →
      maskWith key i (maskWith key i l) = l := by
  intro l
  induction l with
  | nil => intro i _; rfl
  | cons b t ih =>
      intro i h
      rw [allBytes] at h
      simp only [List.all_cons, Bool.and_eq_true] at h
      have hb : b < 256 := of_decide_eq_true h.1
      simp only [maskWith]
      rw [xor_byte_involution b (key.getD (i % 4) 0) hb, ih (i + 1) h.2]

/-! ### Claim C7: cipher involution -/

/-- Claim C7: for every key and every byte sequence `x` (including the empty
one), `decrypt (encrypt x) = x`; the keystream byte at position `i` is
`key XOR (i & 0xFF)` and `Cipher.decrypt` is literally `Cipher.encrypt`. -/
theorem cipher_involution (key : Nat) (x : List Nat) (hx : allBytes x = true) :
    Cipher.decrypt key (Cipher.encrypt key x) = x ∧
      Cipher.decrypt key = Cipher.encrypt key :=
  ⟨cipher_encrypt_decrypt key x hx, rfl⟩

/-- Witness for C7 at key `0x5e` and a concrete three-byte sequence. -/
theorem cipher_involution_witness :
    allBytes [0, 255, 94] = true ∧
      Cipher.decrypt 94 (Cipher.encrypt 94 [0, 255, 94]) = [0, 255, 94] :=
  ⟨by decide, (cipher_involution 94 [0, 255, 94] (by decide)).1⟩

/-! ### Claim C8: checksum detects single-byte corruption -/

/-- Claim C8: `Checksum.calculate` is the byte sum modulo 256 XORed with
`0xAA`, and flipping any single byte of a buffer that passes the packet
checksum verification (the trailing byte against the checksum of the rest,
as `Packet.parse` checks it) to any different byte value makes the
verification fail. -/
theorem checksum_single_byte_corruption :
    (∀ bytes : List Nat, Checksum.calculate bytes = (bytes.sum % 256) ^^^ 170) ∧
      ∀ (p : List Nat) (i b : Nat), allBytes p = true → i < p.length →
        b < 256 → b ≠ p.getD i 0 →
        packetChecksumOk p = true → packetChecksumOk (p.set i b) = false := by
  constructor
  · exact checksum_calculate_eq
  · intro p i b hp hi hb256 hbne hok
    have hlen : (p.set i b).length = p.length := by simp
    rw [packetChecksumOk, Checksum.verify, beq_eq_false_iff_ne, hlen]
    rw [packetChecksumOk, Checksum.verify, beq_iff_eq] at hok
    rcases Nat.lt_or_ge i (p.length - 1) with hilt | hige
    · -- the changed byte is inside the checksummed range
      have hset_take : (p.set i b).take (p.length - 1) =
          (p.take (p.length - 1)).set i b := List.set_take
      have hset_last : (p.set i b).getD (p.length - 1) 0 =
          p.getD (p.length - 1) 0 := by
        rcases Nat.lt_or_ge (p.length - 1) p.length with h1 | h1
        · rw [List.getD_eq_getElem _ 0 (by simpa using h1),
            List.getD_eq_getElem _ 0 h1]
          rw [List.getElem_set_ne (by omega)]
        · omega
      rw [hset_take, hset_last, ← hok]
      intro hEq
      have hsums := xor_170_injective
        ((checksum_calculate_eq _ ▸ hEq).trans (checksum_calculate_eq _))
      have hit : i < (p.take (p.length - 1)).length := by
        simp only [List.length_take]
        omega
      have hsum := sum_set_getD (p.take (p.length - 1)) i b hit
      have hgd : (p.take (p.length - 1)).getD i 0 = p.getD i 0 := by
        rw [List.getD_eq_getElem _ 0 hit, List.getD_eq_getElem _ 0 hi]
        simp [List.getElem_take]
      have hold : p.getD i 0 < 256 := allBytes_getD p i hp
      rw [hgd] at hsum
      omega
    · -- the changed byte is the stored checksum itself
      have hieq : i = p.length - 1 := by omega
      subst hieq
      have hset_take : (p.set (p.length - 1) b).take (p.length - 1) =
          p.take (p.length - 1) := by
        rw [List.set_take, List.set_eq_of_length_le]
        simp only [List.length_take]
        omega
      have hset_last : (p.set (p.length - 1) b).getD (p.length - 1) 0 = b := by
        rw [List.getD_eq_getElem _ 0 (by simpa using hi)]
        exact List.getElem_set_self ..
      rw [hset_take, hset_last, hok]
      intro hEq
      exact hbne hEq.symm

/-- Witness for C8 on the concrete wire bytes of
`Packet.create(PING, {}, false)` with byte 2 (the version byte) changed. -/
theorem checksum_single_byte_corruption_witness :
    (allBytes [66, 78, 1, 0, 51, 1, 0, 111] = true ∧
        2 < ([66, 78, 1, 0, 51, 1, 0, 111] : List Nat).length ∧ (5 : Nat) < 256 ∧
        (5 : Nat) ≠ ([66, 78, 1, 0, 51, 1, 0, 111] : List Nat).getD 2 0 ∧
        packetChecksumOk [66, 78, 1, 0, 51, 1, 0, 111] = true) ∧
      packetChecksumOk (([66, 78, 1, 0, 51, 1, 0, 111] : List Nat).set 2 5) = false :=
  ⟨⟨by decide, by decide, by decide, by decide, by decide⟩,
    checksum_single_byte_corruption.2 [66, 78, 1, 0, 51, 1, 0, 111] 2 5
      (by decide) (by decide) (by decide) (by decide) (by decide)⟩

/-! ### Claim C9: outgoing frames always carry FIN -/

/-- Claim C9 (implicit): every frame built by `sendFrame`, for any opcode,
payload, mask flag and masking key, starts with the byte `0x80 | opcode`, so
its FIN bit (bit 7) is set — the engine never emits a non-final frame; and the
`send` path only ever passes the TEXT or BINARY opcode to `sendFrame`, never
CONTINUATION. -/
theorem sendFrame_always_final (op : Nat) (payload : List Nat) (masked : Bool)
    (key : List Nat) :
    (sendFrame op payload masked key).headD 0 = (128 ||| op) % 256 ∧
      Nat.testBit ((sendFrame op payload masked key).headD 0) 7 = true ∧
      sendOpcode true = 1 ∧ sendOpcode false = 2 := by
  have hhead : (sendFrame op payload masked key).headD 0 = (128 ||| op) % 256 := by
    rw [sendFrame]
    by_cases h1 : payload.length < 126
    · simp [h1]
    · by_cases h2 : payload.length < 65536 <;> simp [h1, h2]
  refine ⟨hhead, ?_, rfl, rfl⟩
  rw [hhead, two_pow_eight]
  have h128 : Nat.testBit 128 7 = true := by decide
  simp only [Nat.testBit_mod_two_pow, Nat.testBit_or, h128]
  simp

/-! ### Claim C5: fragmentation reassembly -/

/-- Claim C5: from an empty accumulator, TEXT(fin=false,"ab") then
CONTINUATION(fin=false,"cd") buffer without emitting, and
CONTINUATION(fin=true,"ef") emits exactly one TEXT-tagged message "abcdef"
and clears the accumulator. -/
theorem fragmentation_reassembly_abcdef :
    handleFrame [] false 1 [97, 98] = ([(1, [97, 98])], []) ∧
      handleFrame [(1, [97, 98])] false 0 [99, 100] =
        ([(1, [97, 98]), (0, [99, 100])], []) ∧
      handleFrame [(1, [97, 98]), (0, [99, 100])] true 0 [101, 102] =
        ([], [WSMsg.text [97, 98, 99, 100, 101, 102]]) := by
  refine ⟨?_, ?_, ?_⟩ <;> rfl

/-! ### Claim C10: a final data frame flushes an open accumulation under its
own opcode -/

/-- Claim C10 (implicit): a TEXT or BINARY frame with `fin = true` arriving on
a non-empty accumulator appends itself, emits exactly one message whose
payload is the concatenation of all buffered payloads in arrival order but
whose tag comes from this final frame's opcode, and clears the accumulator. -/
theorem final_data_frame_flushes_accumulator (st : List (Nat × List Nat))
    (op : Nat) (payload : List Nat) (hst : st ≠ []) (hop : op = 1 ∨ op = 2) :
    handleFrame st true op payload =
      ([], [emitMessage op ((st.map Prod.snd).flatten ++ payload)]) := by
  rw [handleFrame, if_pos hop]
  have hlen : 0 < st.length := List.length_pos.mpr hst
  simp [hlen]

/-- Witness for C10: a buffered TEXT fragment flushed by a final BINARY frame
is emitted as one binary message tagged by the final frame. -/
theorem final_data_frame_flushes_accumulator_witness :
    ([(1, [97])] : List (Nat × List Nat)) ≠ [] ∧ ((2 : Nat) = 1 ∨ (2 : Nat) = 2) ∧
      handleFrame [(1, [97])] true 2 [98] = ([], [WSMsg.binary [97, 98]]) :=
  ⟨by decide, Or.inr rfl,
    final_data_frame_flushes_accumulator [(1, [97])] 2 [98] (by decide) (Or.inr rfl)⟩

/-! ### Claim C6: liveness sweep -/

/-- Claim C6: over the step machine of sweep ticks and PONG receptions, a
tracked connection that receives no PONG between two consecutive sweeps is
destroyed (removed from the client set) by the second sweep, while one whose
PONG arrives between the sweeps is pinged again by the second sweep and stays
tracked. -/
theorem liveness_sweep (c : ConnLive) (h : c.tracked = true) :
    (liveRun c [.sweep, .sweep]).1.tracked = false ∧
      (c.isAlive = true →
        (liveRun c [.sweep, .pong, .sweep]).1 =
            { tracked := true, isAlive := false } ∧
          (liveRun c [.sweep, .pong, .sweep]).2 = [true, false, true]) := by
  obtain ⟨tr, al⟩ := c
  simp only at h
  subst h
  cases al <;> simp [liveRun, liveStep]

/-- Witness for C6 starting from a fresh (tracked, alive) connection. -/
theorem liveness_sweep_witness :
    (ConnLive.mk true true).tracked = true ∧
      (liveRun ⟨true, true⟩ [.sweep, .sweep]).1.tracked = false ∧
      (liveRun ⟨true, true⟩ [.sweep, .pong, .sweep]).1 =
        { tracked := true, isAlive := false } ∧
      (liveRun ⟨true, true⟩ [.sweep, .pong, .sweep]).2 = [true, false, true] :=
  ⟨rfl, (liveness_sweep ⟨true, true⟩ rfl).1,
    ((liveness_sweep ⟨true, true⟩ rfl).2 rfl).1,
    ((liveness_sweep ⟨true, true⟩ rfl).2 rfl).2⟩

/-! ### Claim C4: WebSocket frame round trip -/

theorem hdrByteFin : ∀ o, o < 16 → ((128 ||| o) % 256) &&& 128 = 128 := by decide
theorem hdrByteOp : ∀ o, o < 16 → ((128 ||| o) % 256) &&& 15 = o := by decide
theorem lenByteMasked : ∀ x, x < 128 → ((128 ||| x) % 256) &&& 128 = 128 := by decide
theorem lenByteMaskedVal : ∀ x, x < 128 → ((128 ||| x) % 256) &&& 127 = x := by decide
theorem lenBytePlain : ∀ x, x < 128 → (x % 256) &&& 128 = 0 := by decide
theorem lenBytePlainVal : ∀ x, x < 128 → (x % 256) &&& 127 = x := by decide

theorem ws_roundtrip_short_masked (op : Nat) (payload : List Nat)
    (key : List Nat) (hop : op < 16) (hp : allBytes payload = true)
    (h1 : payload.length < 126) (hk : key.length = 4) :
    parseFrame (sendFrame op payload true key) =
      some (⟨true, op, payload⟩, (sendFrame op payload true key).length) := by
  have hmlen : (maskWith key 0 payload).length = payload.length :=
    maskWith_length key 0 payload
  have hinv : maskWith key 0 (maskWith key 0 payload) = payload :=
    maskWith_involutive key payload 0 hp
  have e1 : ((128 ||| op) % 256) &&& 128 = 128 := hdrByteFin op hop
  have e2 : ((128 ||| op) % 256) &&& 15 = op := hdrByteOp op hop
  have e3 : ((128 ||| payload.length) % 256) &&& 128 = 128 :=
    lenByteMasked _ (by omega)
  have e4 : ((128 ||| payload.length) % 256) &&& 127 = payload.length :=
    lenByteMaskedVal _ (by omega)
  rw [sendFrame]
  simp only [if_pos h1, if_pos rfl, List.cons_append, List.nil_append]
  rw [parseFrame]
  simp only [List.length_cons, List.getD_cons_zero, List.getD_cons_succ,
    List.length_append, hmlen, hk]
  rw [if_neg (by omega)]
  simp only [e1, e2, e3, e4, beq_self_eq_true, if_pos]
  rw [if_neg (by omega), if_neg (by omega)]
  simp only [List.drop_succ_cons, List.drop_zero]
  have hlen2 : (key ++ maskWith key 0 payload).length = 4 + payload.length := by
    simp [hk, hmlen]
  have hk2 : key.length = 2 + 2 := by omega
  rw [if_neg (by omega), List.take_left' hk, List.drop_left' hk2,
    List.take_of_length_le (by omega), hinv]
  simp only [Option.some.injEq, Prod.mk.injEq, and_true, true_and]
  omega

theorem ws_roundtrip_short_plain (op : Nat) (payload : List Nat)
    (key : List Nat) (hop : op < 16) (_hp : allBytes payload = true)
    (h1 : payload.length < 126) (_hk : key.length = 4) :
    parseFrame (sendFrame op payload false key) =
      some (⟨true, op, payload⟩, (sendFrame op payload false key).length) := by
  have e1 : ((128 ||| op) % 256) &&& 128 = 128 := hdrByteFin op hop
  have e2 : ((128 ||| op) % 256) &&& 15 = op := hdrByteOp op hop
  have e3 : (payload.length % 256) &&& 128 = 0 := lenBytePlain _ (by omega)
  have e4 : (payload.length % 256) &&& 127 = payload.length :=
    lenBytePlainVal _ (by omega)
  rw [sendFrame]
  simp only [if_pos h1, if_neg (Bool.false_ne_true), List.cons_append,
    List.nil_append, Nat.zero_or]
  rw [parseFrame]
  simp only [List.length_cons, List.getD_cons_zero, List.getD_cons_succ]
  rw [if_neg (by omega)]
  simp only [e1, e2, e3, e4, beq_self_eq_true, if_pos]
  rw [if_neg (by omega), if_neg (by omega)]
  simp only [show ((0 : Nat) == 128) = false from rfl, Bool.false_eq_true,
    if_false, List.drop_succ_cons, List.drop_zero]
  rw [if_neg (by omega), List.take_of_length_le (by omega)]
  simp only [Option.some.injEq, Prod.mk.injEq, and_true, true_and]
  omega
theorem byte254fin : ((128 ||| 126 : Nat) % 256) &&& 128 = 128 := by decide
theorem byte254val : ((128 ||| 126 : Nat) % 256) &&& 127 = 126 := by decide
theorem byte126fin : ((126 : Nat) % 256) &&& 128 = 0 := by decide
theorem byte126val : ((126 : Nat) % 256) &&& 127 = 126 := by decide
theorem byte255fin : ((128 ||| 127 : Nat) % 256) &&& 128 = 128 := by decide
theorem byte255val : ((128 ||| 127 : Nat) % 256) &&& 127 = 127 := by decide
theorem byte127fin : ((127 : Nat) % 256) &&& 128 = 0 := by decide
theorem byte127val : ((127 : Nat) % 256) &&& 127 = 127 := by decide

theorem ws_roundtrip_ext_masked (op : Nat) (payload : List Nat)
    (key : List Nat) (hop : op < 16) (hp : allBytes payload = true)
    (h1 : ¬ payload.length < 126) (h2 : payload.length < 65536)
    (hk : key.length = 4) :
    parseFrame (sendFrame op payload true key) =
      some (⟨true, op, payload⟩, (sendFrame op payload true key).length) := by
  have hmlen : (maskWith key 0 payload).length = payload.length :=
    maskWith_length key 0 payload
  have hinv : maskWith key 0 (maskWith key 0 payload) = payload :=
    maskWith_involutive key payload 0 hp
  have e1 : ((128 ||| op) % 256) &&& 128 = 128 := hdrByteFin op hop
  have e2 : ((128 ||| op) % 256) &&& 15 = op := hdrByteOp op hop
  rw [sendFrame]
  simp only [if_neg h1, if_pos h2, if_pos rfl, be2, List.cons_append,
    List.nil_append, List.append_assoc]
  rw [parseFrame]
  simp only [List.length_cons, List.getD_cons_zero, List.getD_cons_succ]
  rw [if_neg (by omega)]
  simp only [e1, e2, byte254fin, byte254val, beq_self_eq_true, if_pos, if_true]
  rw [if_neg (by omega)]
  simp only [readU16at, List.getD_cons_zero, List.getD_cons_succ]
  have hcomb : payload.length / 256 % 256 * 256 + payload.length % 256 =
      payload.length := by omega
  rw [hcomb]
  have hlen2 : (key ++ maskWith key 0 payload).length = 4 + payload.length := by
    simp [hk, hmlen]
  have hdrop1 : List.drop 4 ((128 ||| op) % 256 :: (128 ||| 126) % 256 ::
      payload.length / 256 % 256 :: payload.length % 256 ::
      (key ++ maskWith key 0 payload)) = key ++ maskWith key 0 payload := rfl
  have hdrop2 : List.drop (4 + 4) ((128 ||| op) % 256 :: (128 ||| 126) % 256 ::
      payload.length / 256 % 256 :: payload.length % 256 ::
      (key ++ maskWith key 0 payload)) =
      List.drop 4 (key ++ maskWith key 0 payload) := rfl
  rw [hdrop1, hdrop2, List.take_left' hk, List.drop_left' hk,
    if_neg (by omega), List.take_of_length_le (by omega), hinv]
  simp only [Option.some.injEq, Prod.mk.injEq, and_true, true_and]
  omega
theorem ws_roundtrip_ext_plain (op : Nat) (payload : List Nat)
    (key : List Nat) (hop : op < 16) (_hp : allBytes payload = true)
    (h1 : ¬ payload.length < 126) (h2 : payload.length < 65536)
    (_hk : key.length = 4) :
    parseFrame (sendFrame op payload false key) =
      some (⟨true, op, payload⟩, (sendFrame op payload false key).length) := by
  have e1 : ((128 ||| op) % 256) &&& 128 = 128 := hdrByteFin op hop
  have e2 : ((128 ||| op) % 256) &&& 15 = op := hdrByteOp op hop
  rw [sendFrame]
  simp only [if_neg h1, if_pos h2, if_neg (Bool.false_ne_true), be2,
    List.cons_append, List.nil_append, List.append_assoc, Nat.zero_or]
  rw [parseFrame]
  simp only [List.length_cons, List.getD_cons_zero, List.getD_cons_succ]
  rw [if_neg (by omega)]
  simp only [e1, e2, byte126fin, byte126val, beq_self_eq_true, if_pos, if_true]
  rw [if_neg (by omega)]
  simp only [readU16at, List.getD_cons_zero, List.getD_cons_succ]
  have hcomb : payload.length / 256 % 256 * 256 + payload.length % 256 =
      payload.length := by omega
  rw [hcomb]
  simp only [show ((0 : Nat) == 128) = false from rfl, Bool.false_eq_true,
    if_false]
  have hdrop1 : List.drop 4 ((128 ||| op) % 256 :: (126 : Nat) % 256 ::
      payload.length / 256 % 256 :: payload.length % 256 :: payload) =
      payload := rfl
  rw [hdrop1, if_neg (by omega), List.take_of_length_le (by omega)]
  simp only [Option.some.injEq, Prod.mk.injEq, and_true, true_and]
  omega
theorem ws_roundtrip_long_masked (op : Nat) (payload : List Nat)
    (key : List Nat) (hop : op < 16) (hp : allBytes payload = true)
    (h2 : ¬ payload.length < 65536) (hn : payload.length < 4294967296)
    (hk : key.length = 4) :
    parseFrame (sendFrame op payload true key) =
      some (⟨true, op, payload⟩, (sendFrame op payload true key).length) := by
  have hmlen : (maskWith key 0 payload).length = payload.length :=
    maskWith_length key 0 payload
  have hinv : maskWith key 0 (maskWith key 0 payload) = payload :=
    maskWith_involutive key payload 0 hp
  have e1 : ((128 ||| op) % 256) &&& 128 = 128 := hdrByteFin op hop
  have e2 : ((128 ||| op) % 256) &&& 15 = op := hdrByteOp op hop
  rw [sendFrame]
  simp only [if_neg (show ¬ payload.length < 126 by omega), if_neg h2,
    if_pos rfl, be4, List.cons_append, List.nil_append, List.append_assoc,
    Nat.zero_div, Nat.zero_mod]
  rw [parseFrame]
  simp only [List.length_cons, List.getD_cons_zero, List.getD_cons_succ]
  rw [if_neg (by omega)]
  simp only [e1, e2, byte255fin, byte255val, beq_self_eq_true, if_pos, if_true]
  rw [if_neg (by decide), if_neg (by omega)]
  simp only [readU32at, List.getD_cons_zero, List.getD_cons_succ]
  have hcomb : (0 : Nat) * 16777216 + 0 * 65536 + 0 * 256 + 0 = 0 := by norm_num
  have hcomb2 : payload.length / 16777216 % 256 * 16777216 +
      payload.length / 65536 % 256 * 65536 + payload.length / 256 % 256 * 256 +
      payload.length % 256 = payload.length := by omega
  rw [hcomb, hcomb2]
  have hz : (0 : Nat) * 4294967296 + payload.length = payload.length := by omega
  rw [hz]
  have hlen2 : (key ++ maskWith key 0 payload).length = 4 + payload.length := by
    simp [hk, hmlen]
  have hdrop1 : List.drop 10 ((128 ||| op) % 256 :: (128 ||| 127) % 256 ::
      (0 : Nat) :: (0 : Nat) :: (0 : Nat) :: (0 : Nat) ::
      payload.length / 16777216 % 256 :: payload.length / 65536 % 256 ::
      payload.length / 256 % 256 :: payload.length % 256 ::
      (key ++ maskWith key 0 payload)) = key ++ maskWith key 0 payload := rfl
  have hdrop2 : List.drop (10 + 4) ((128 ||| op) % 256 :: (128 ||| 127) % 256 ::
      (0 : Nat) :: (0 : Nat) :: (0 : Nat) :: (0 : Nat) ::
      payload.length / 16777216 % 256 :: payload.length / 65536 % 256 ::
      payload.length / 256 % 256 :: payload.length % 256 ::
      (key ++ maskWith key 0 payload)) =
      List.drop 4 (key ++ maskWith key 0 payload) := rfl
  rw [hdrop1, hdrop2, List.take_left' hk, List.drop_left' hk,
    if_neg (by omega), List.take_of_length_le (by omega), hinv]
  simp only [Option.some.injEq, Prod.mk.injEq, and_true, true_and]
  omega

theorem ws_roundtrip_long_plain (op : Nat) (payload : List Nat)
    (key : List Nat) (hop : op < 16) (_hp : allBytes payload = true)
    (h2 : ¬ payload.length < 65536) (hn : payload.length < 4294967296)
    (_hk : key.length = 4) :
    parseFrame (sendFrame op payload false key) =
      some (⟨true, op, payload⟩, (sendFrame op payload false key).length) := by
  have e1 : ((128 ||| op) % 256) &&& 128 = 128 := hdrByteFin op hop
  have e2 : ((128 ||| op) % 256) &&& 15 = op := hdrByteOp op hop
  rw [sendFrame]
  simp only [if_neg (show ¬ payload.length < 126 by omega), if_neg h2,
    if_neg (Bool.false_ne_true), be4, List.cons_append, List.nil_append,
    List.append_assoc, Nat.zero_div, Nat.zero_mod, Nat.zero_or]
  rw [parseFrame]
  simp only [List.length_cons, List.getD_cons_zero, List.getD_cons_succ]
  rw [if_neg (by omega)]
  simp only [e1, e2, byte127fin, byte127val, beq_self_eq_true, if_pos, if_true]
  rw [if_neg (by decide), if_neg (by omega)]
  simp only [readU32at, List.getD_cons_zero, List.getD_cons_succ]
  have hcomb : (0 : Nat) * 16777216 + 0 * 65536 + 0 * 256 + 0 = 0 := by norm_num
  have hcomb2 : payload.length / 16777216 % 256 * 16777216 +
      payload.length / 65536 % 256 * 65536 + payload.length / 256 % 256 * 256 +
      payload.length % 256 = payload.length := by omega
  rw [hcomb, hcomb2]
  have hz : (0 : Nat) * 4294967296 + payload.length = payload.length := by omega
  rw [hz]
  simp only [show ((0 : Nat) == 128) = false from rfl, Bool.false_eq_true,
    if_false]
  have hdrop1 : List.drop 10 ((128 ||| op) % 256 :: (127 : Nat) % 256 ::
      (0 : Nat) :: (0 : Nat) :: (0 : Nat) :: (0 : Nat) ::
      payload.length / 16777216 % 256 :: payload.length / 65536 % 256 ::
      payload.length / 256 % 256 :: payload.length % 256 :: payload) =
      payload := rfl
  rw [hdrop1, if_neg (by omega), List.take_of_length_le (by omega)]
  simp only [Option.some.injEq, Prod.mk.injEq, and_true, true_and]
  omega

/-- Claim C4: for every opcode below 16 (which covers the supported set),
every mask flag, every 4-byte masking key and every payload shorter than
`2^32` (the format's length limit), feeding the bytes built by `sendFrame`
into the frame parser recovers a final frame with the original opcode and
payload — a masked payload being restored by the XOR with `maskKey[i % 4]` —
and consumes exactly the built bytes. -/
theorem ws_frame_roundtrip (op : Nat) (payload : List Nat) (masked : Bool)
    (key : List Nat) (hop : op < 16) (hp : allBytes payload = true)
    (hn : payload.length < 4294967296) (hk : key.length = 4) :
    parseFrame (sendFrame op payload masked key) =
      some (⟨true, op, payload⟩, (sendFrame op payload masked key).length) := by
  cases masked with
  | false =>
      by_cases h1 : payload.length < 126
      · exact ws_roundtrip_short_plain op payload key hop hp h1 hk
      · by_cases h2 : payload.length < 65536
        · exact ws_roundtrip_ext_plain op payload key hop hp h1 h2 hk
        · exact ws_roundtrip_long_plain op payload key hop hp h2 hn hk
  | true =>
      by_cases h1 : payload.length < 126
      · exact ws_roundtrip_short_masked op payload key hop hp h1 hk
      · by_cases h2 : payload.length < 65536
        · exact ws_roundtrip_ext_masked op payload key hop hp h1 h2 hk
        · exact ws_roundtrip_long_masked op payload key hop hp h2 hn hk

/-- Witness for C4: a masked PING-opcode frame with a two-byte payload. -/
theorem ws_frame_roundtrip_witness :
    ((9 : Nat) < 16 ∧ allBytes [7, 8] = true ∧
        ([7, 8] : List Nat).length < 4294967296 ∧
        ([1, 2, 3, 4] : List Nat).length = 4) ∧
      parseFrame (sendFrame 9 [7, 8] true [1, 2, 3, 4]) =
        some (⟨true, 9, [7, 8]⟩, (sendFrame 9 [7, 8] true [1, 2, 3, 4]).length) :=
  ⟨⟨by decide, by decide, by decide, by decide⟩,
    ws_frame_roundtrip 9 [7, 8] true [1, 2, 3, 4]
      (by decide) (by decide) (by decide) (by decide)⟩

/-! ### Claim C3: typed-value decode error contract -/

theorem decode_tag_underflow (fuel : Nat) :
    readValueF (fuel + 1) [] = .error .underflow := rfl

theorem decode_unknown_tag (fuel t : Nat) (rest : List Nat) (h : 13 < t) :
    readValueF (fuel + 1) (t :: rest) = .error (.unknownType t) := by
  obtain ⟨k, rfl⟩ : ∃ k, t = k + 14 := ⟨t - 14, by omega⟩
  rfl

theorem decode_short_rangeError (fuel : Nat) (rest : List Nat)
    (h : rest.length < 2) :
    readValueF (fuel + 1) (3 :: rest) = .error .rangeError := by
  rw [readValueF]
  simp only [ProtocolReader.readByte]
  rw [ProtocolReader.readShort, if_neg (by omega)]

theorem decode_int_rangeError (fuel : Nat) (rest : List Nat)
    (h : rest.length < 4) :
    readValueF (fuel + 1) (4 :: rest) = .error .rangeError := by
  rw [readValueF]
  simp only [ProtocolReader.readByte]
  rw [ProtocolReader.readInt, if_neg (by omega)]

theorem decode_float_rangeError (fuel : Nat) (rest : List Nat)
    (h : rest.length < 4) :
    readValueF (fuel + 1) (6 :: rest) = .error .rangeError := by
  rw [readValueF]
  simp only [ProtocolReader.readByte]
  rw [ProtocolReader.readFloat, if_neg (by omega)]

theorem decode_double_rangeError (fuel : Nat) (rest : List Nat)
    (h : rest.length < 8) :
    readValueF (fuel + 1) (7 :: rest) = .error .rangeError := by
  rw [readValueF]
  simp only [ProtocolReader.readByte]
  rw [ProtocolReader.readDouble, if_neg (by omega)]

theorem decode_bool_underflow (fuel : Nat) :
    readValueF (fuel + 1) [1] = .error .underflow := rfl

theorem decode_byte_underflow (fuel : Nat) :
    readValueF (fuel + 1) [2] = .error .underflow := rfl

theorem varDecode_underflow : ∀ rest : List Nat,
    (∀ b ∈ rest, b &&& 128 ≠ 0) → varDecode rest = .error .underflow
  | [], _ => rfl
  | b :: rest, h => by
      rw [varDecode, if_pos (h b (List.mem_cons_self b rest)),
        varDecode_underflow rest (fun x hx => h x (List.mem_cons_of_mem b hx))]

theorem decode_long_underflow (fuel : Nat) (rest : List Nat)
    (h : ∀ b ∈ rest, b &&& 128 ≠ 0) :
    readValueF (fuel + 1) (5 :: rest) = .error .underflow := by
  rw [readValueF]
  simp only [ProtocolReader.readByte]
  rw [ProtocolReader.readVarInt, varDecode_underflow rest h]

theorem decode_bytes_underflow (fuel n : Nat) (s : List Nat)
    (hlen : s.length < n) (hn : n < 128) :
    readValueF (fuel + 1) (9 :: n :: s) = .error .underflow := by
  rw [readValueF]
  simp only [ProtocolReader.readByte]
  rw [ProtocolReader.readBytes]
  simp only [varDecode, land_128_of_lt n hn, ne_eq, not_true_eq_false,
    if_neg, Nat.mod_eq_of_lt hn, if_false]
  rw [if_neg (show ¬ n = 0 by omega)]
  simp only [List.drop_succ_cons, List.drop_zero]
  rw [ProtocolReader.read, if_neg (show ¬ n ≤ s.length by omega)]

theorem readValueF_nil : ∀ fuel : Nat, readValueF fuel [] = .error .underflow
  | 0 => rfl
  | _ + 1 => rfl

theorem readListF_pos_nil : ∀ fuel count : Nat,
    readListF fuel (count + 1) [] = .error .underflow
  | 0, _ => rfl
  | fuel + 1, count => by
      rw [readListF, readValueF_nil fuel]

theorem readEntriesF_pos_nil : ∀ (fuel count : Nat) (acc : PEntries),
    readEntriesF fuel (count + 1) acc [] = .error .underflow
  | 0, _, _ => rfl
  | _ + 1, _, _ => rfl

theorem decode_array_underflow (fuel n : Nat) (h0 : 0 < n) (hn : n < 128) :
    readValueF (fuel + 1) [10, n] = .error .underflow := by
  obtain ⟨m, rfl⟩ : ∃ m, n = m + 1 := ⟨n - 1, by omega⟩
  rw [readValueF]
  simp only [ProtocolReader.readByte]
  rw [ProtocolReader.readVarInt]
  simp only [varDecode, land_128_of_lt (m + 1) hn, ne_eq, not_true_eq_false,
    if_neg, Nat.mod_eq_of_lt hn, if_false, List.drop_succ_cons, List.drop_zero]
  rw [readListF_pos_nil fuel m]

theorem decode_map_underflow (fuel n : Nat) (h0 : 0 < n) (hn : n < 128) :
    readValueF (fuel + 1) [11, n] = .error .underflow := by
  obtain ⟨m, rfl⟩ : ∃ m, n = m + 1 := ⟨n - 1, by omega⟩
  rw [readValueF]
  simp only [ProtocolReader.readByte]
  rw [ProtocolReader.readVarInt]
  simp only [varDecode, land_128_of_lt (m + 1) hn, ne_eq, not_true_eq_false,
    if_neg, Nat.mod_eq_of_lt hn, if_false, List.drop_succ_cons, List.drop_zero]
  rw [readEntriesF_pos_nil fuel m PEntries.nil]

theorem decode_string_clamp (fuel n : Nat) (s : List Nat)
    (hlen : s.length < n) (hn : n < 128) :
    readValueF (fuel + 1) (8 :: n :: s) = .ok (.vstr s, []) := by
  rw [readValueF]
  simp only [ProtocolReader.readByte]
  rw [ProtocolReader.readString]
  simp only [varDecode, land_128_of_lt n hn, ne_eq, not_true_eq_false,
    if_neg, Nat.mod_eq_of_lt hn, if_false]
  rw [if_neg (show ¬ n = 0 by omega)]
  simp only [List.drop_succ_cons, List.drop_zero]
  rw [List.take_of_length_le (by omega), List.drop_eq_nil_of_le (by omega)]

/-- Counterexample to claim C3 as stated: decoding the STRING value
`[0x08, 0x05, 0x61]` — declared length 5 with only one byte remaining —
does not fail with Underflow (or at all): Node's `toString` clamps, and the
reader returns the truncated string.  Likewise a truncated SHORT fails with
the bounds error of `readInt16BE`, not with Underflow. -/
theorem decode_truncated_string_succeeds :
    readValueF 1 [8, 5, 97] = .ok (.vstr [97], []) ∧
      readValueF 1 [8, 5, 97] ≠ .error .underflow ∧
      readValueF 1 [3, 0] = .error .rangeError ∧
      readValueF 1 [3, 0] ≠ .error .underflow :=
  ⟨rfl, by simp [show readValueF 1 [8, 5, 97] = .ok (.vstr [97], []) from rfl],
    rfl, by simp [show readValueF 1 [3, 0] = .error .rangeError from rfl]⟩

/-- Claim C3 as amended: decoding fails with `Buffer underflow` when the tag
byte is missing, or when a VarInt read (LONG, whose groups never terminate
before the buffer ends), a BOOL read, a BYTE read, a BYTES read (declared
length exceeding the remaining bytes), an ARRAY element read or a MAP entry
read runs out of bytes; a tag byte outside `0..13` fails with `Unknown type`;
but a truncated fixed-width numeric (SHORT, INT, FLOAT or DOUBLE with fewer
remaining bytes than its width) fails with the range error of Node's
bounds-checked accessor, a failure mode distinct from Underflow, and a STRING
whose declared length exceeds the remaining bytes does not fail at all — it
succeeds with the string silently truncated to the bytes present (and the
reader advanced past the end). -/
theorem decode_error_contract_amended :
    (∀ fuel, readValueF (fuel + 1) [] = .error .underflow) ∧
      (∀ (fuel : Nat) (rest : List Nat), (∀ b ∈ rest, b &&& 128 ≠ 0) →
        readValueF (fuel + 1) (5 :: rest) = .error .underflow) ∧
      (∀ fuel, readValueF (fuel + 1) [1] = .error .underflow) ∧
      (∀ fuel, readValueF (fuel + 1) [2] = .error .underflow) ∧
      (∀ (fuel n : Nat) (s : List Nat), s.length < n → n < 128 →
        readValueF (fuel + 1) (9 :: n :: s) = .error .underflow) ∧
      (∀ fuel n : Nat, 0 < n → n < 128 →
        readValueF (fuel + 1) [10, n] = .error .underflow) ∧
      (∀ fuel n : Nat, 0 < n → n < 128 →
        readValueF (fuel + 1) [11, n] = .error .underflow) ∧
      (∀ (fuel t : Nat) (rest : List Nat), 13 < t →
        readValueF (fuel + 1) (t :: rest) = .error (.unknownType t)) ∧
      (∀ (fuel : Nat) (rest : List Nat), rest.length < 2 →
        readValueF (fuel + 1) (3 :: rest) = .error .rangeError) ∧
      (∀ (fuel : Nat) (rest : List Nat), rest.length < 4 →
        readValueF (fuel + 1) (4 :: rest) = .error .rangeError) ∧
      (∀ (fuel : Nat) (rest : List Nat), rest.length < 4 →
        readValueF (fuel + 1) (6 :: rest) = .error .rangeError) ∧
      (∀ (fuel : Nat) (rest : List Nat), rest.length < 8 →
        readValueF (fuel + 1) (7 :: rest) = .error .rangeError) ∧
      (∀ (fuel n : Nat) (s : List Nat), s.length < n → n < 128 →
        readValueF (fuel + 1) (8 :: n :: s) = .ok (.vstr s, [])) :=
  ⟨decode_tag_underflow, decode_long_underflow, decode_bool_underflow,
    decode_byte_underflow, decode_bytes_underflow, decode_array_underflow,
    decode_map_underflow, decode_unknown_tag, decode_short_rangeError,
    decode_int_rangeError, decode_float_rangeError, decode_double_rangeError,
    decode_string_clamp⟩

/-- Witness for the amended C3: every failure mode of the contract evaluated
at a concrete one-value buffer (the array and map instances are given enough
fuel that the failure is the element read hitting the end of the buffer). -/
theorem decode_error_contract_amended_witness :
    readValueF 1 [] = .error .underflow ∧
      readValueF 1 [5, 130] = .error .underflow ∧
      readValueF 1 [1] = .error .underflow ∧
      readValueF 1 [2] = .error .underflow ∧
      (([97] : List Nat).length < 5 ∧ (5 : Nat) < 128 ∧
        readValueF 1 [9, 5, 97] = .error .underflow) ∧
      ((0 : Nat) < 2 ∧ (2 : Nat) < 128 ∧
        readValueF 3 [10, 2] = .error .underflow) ∧
      ((0 : Nat) < 2 ∧ (2 : Nat) < 128 ∧
        readValueF 2 [11, 2] = .error .underflow) ∧
      (13 < 20 ∧ readValueF 1 [20, 0] = .error (.unknownType 20)) ∧
      (([0] : List Nat).length < 2 ∧ readValueF 1 [3, 0] = .error .rangeError) ∧
      (([0] : List Nat).length < 4 ∧ readValueF 1 [4, 0] = .error .rangeError) ∧
      (([0] : List Nat).length < 4 ∧ readValueF 1 [6, 0] = .error .rangeError) ∧
      (([0] : List Nat).length < 8 ∧ readValueF 1 [7, 0] = .error .rangeError) ∧
      (([97] : List Nat).length < 5 ∧ (5 : Nat) < 128 ∧
        readValueF 1 [8, 5, 97] = .ok (.vstr [97], [])) :=
  ⟨decode_error_contract_amended.1 0,
    decode_error_contract_amended.2.1 0 [130] (by decide),
    decode_error_contract_amended.2.2.1 0,
    decode_error_contract_amended.2.2.2.1 0,
    ⟨by decide, by decide,
      decode_error_contract_amended.2.2.2.2.1 0 5 [97] (by decide) (by decide)⟩,
    ⟨by decide, by decide,
      decode_error_contract_amended.2.2.2.2.2.1 2 2 (by decide) (by decide)⟩,
    ⟨by decide, by decide,
      decode_error_contract_amended.2.2.2.2.2.2.1 1 2 (by decide) (by decide)⟩,
    ⟨by decide,
      decode_error_contract_amended.2.2.2.2.2.2.2.1 0 20 [0] (by decide)⟩,
    ⟨by decide,
      decode_error_contract_amended.2.2.2.2.2.2.2.2.1 0 [0] (by decide)⟩,
    ⟨by decide,
      decode_error_contract_amended.2.2.2.2.2.2.2.2.2.1 0 [0] (by decide)⟩,
    ⟨by decide,
      decode_error_contract_amended.2.2.2.2.2.2.2.2.2.2.1 0 [0] (by decide)⟩,
    ⟨by decide,
      decode_error_contract_amended.2.2.2.2.2.2.2.2.2.2.2.1 0 [0] (by decide)⟩,
    ⟨by decide, by decide,
      decode_error_contract_amended.2.2.2.2.2.2.2.2.2.2.2.2 0 5 [97]
        (by decide) (by decide)⟩⟩

/-! ### Claim C1: packet round trip -/

theorem PEntries.append_nil : ∀ e : PEntries, PEntries.append e .nil = e
  | .nil => rfl
  | .cons k v t => by rw [PEntries.append, PEntries.append_nil t]

theorem PEntries.append_assoc :
    ∀ (a : PEntries) (b c : PEntries),
      PEntries.append (PEntries.append a b) c =
        PEntries.append a (PEntries.append b c)
  | .nil, b, c => rfl
  | .cons k v t, b, c => by
      rw [PEntries.append, PEntries.append, PEntries.append,
        PEntries.append_assoc t b c]

theorem insertJS_fresh : ∀ (acc : PEntries) (k : List Nat) (v : PVal),
    k ∉ PEntries.keys acc →
    insertJS acc k v = PEntries.append acc (.cons k v .nil)
  | .nil, k, v, _ => rfl
  | .cons k0 v0 t, k, v, hk => by
      simp only [PEntries.keys, List.mem_cons, not_or] at hk
      rw [insertJS, if_neg (fun h => hk.1 h.symm), PEntries.append,
        insertJS_fresh t k v hk.2]

theorem keys_append : ∀ (a b : PEntries),
    PEntries.keys (PEntries.append a b) = PEntries.keys a ++ PEntries.keys b
  | .nil, b => rfl
  | .cons k v t, b => by
      rw [PEntries.append, PEntries.keys, PEntries.keys, keys_append t b,
        List.cons_append]

theorem isVecShape_characterization (e : PEntries) (h : isVecShape e = true) :
    (∃ a b, e = .cons xKey (.vfloat a) (.cons yKey (.vfloat b) .nil)) ∨
      (∃ a b c, e = .cons xKey (.vfloat a) (.cons yKey (.vfloat b)
        (.cons zKey (.vfloat c) .nil))) := by
  match e, h with
  | .cons k1 (.vfloat a) (.cons k2 (.vfloat b) .nil), h =>
      left
      refine ⟨a, b, ?_⟩
      rw [isVecShape] at h
      simp only [Bool.and_eq_true, beq_iff_eq] at h
      rw [h.1, h.2]
  | .cons k1 (.vfloat a) (.cons k2 (.vfloat b) (.cons k3 (.vfloat c) .nil)), h =>
      right
      refine ⟨a, b, c, ?_⟩
      rw [isVecShape] at h
      simp only [Bool.and_eq_true, beq_iff_eq] at h
      rw [h.1.1, h.1.2, h.2]


theorem fsizeVal_pos : ∀ v : PVal, 1 ≤ fsizeVal v
  | .vnull => by simp [fsizeVal]
  | .vbool _ => by simp [fsizeVal]
  | .vint _ => by simp [fsizeVal]
  | .vfloat _ => by simp [fsizeVal]
  | .vdouble _ => by simp [fsizeVal]
  | .vstr _ => by simp [fsizeVal]
  | .vbytes _ => by simp [fsizeVal]
  | .varr _ => by simp [fsizeVal]
  | .vmap _ => by simp [fsizeVal]

theorem rtVal_vnull (fuel : Nat) (rest : List Nat) :
    readValueF (fuel + 1) (writeValue .vnull ++ rest) = .ok (.vnull, rest) := rfl

theorem rtVal_vbool (b : Bool) (fuel : Nat) (rest : List Nat) :
    readValueF (fuel + 1) (writeValue (.vbool b) ++ rest) = .ok (.vbool b, rest) := by
  cases b <;> rfl

theorem rtVal_vint (i : Int) (fuel : Nat) (rest : List Nat)
    (hg : goodVal (.vint i) = true) :
    readValueF (fuel + 1) (writeValue (.vint i) ++ rest) = .ok (.vint i, rest) := by
  rw [goodVal] at hg
  simp only [Bool.or_eq_true, Bool.and_eq_true, decide_eq_true_eq] at hg
  rw [writeValue]
  by_cases hlong : 2147483647 < i ∨ i < -2147483648
  · -- LONG path: only reachable for positive values in the good range
    have hpos : 0 ≤ i := by omega
    rw [if_pos hlong]
    simp only [List.cons_append]
    rw [readValueF]
    simp only [ProtocolReader.readByte, readVarInt_varLong i hpos rest]
    have : ((i.toNat : Nat) : Int) = i := by omega
    rw [this]
  · rw [if_neg hlong]
    by_cases hbyte : -128 ≤ i ∧ i ≤ 127
    · rw [if_pos hbyte]
      have hge : 0 ≤ i := by omega
      simp only [List.cons_append]
      rw [readValueF]
      simp only [ProtocolReader.readByte]
      have : (((i % 256).toNat : Nat) : Int) = i := by omega
      rw [this, List.nil_append]
    · rw [if_neg hbyte]
      by_cases hshort : -32768 ≤ i ∧ i ≤ 32767
      · rw [if_pos hshort]
        simp only [List.cons_append]
        rw [readValueF]
        simp only [ProtocolReader.readByte,
          readShort_write i hshort.1 hshort.2 rest]
      · rw [if_neg hshort]
        simp only [List.cons_append]
        rw [readValueF]
        simp only [ProtocolReader.readByte,
          readInt_write i (by omega) (by omega) rest]

theorem rtVal_vfloat (bits : Nat) (fuel : Nat) (rest : List Nat)
    (hg : goodVal (.vfloat bits) = true) :
    readValueF (fuel + 1) (writeValue (.vfloat bits) ++ rest) =
      .ok (.vfloat bits, rest) := by
  rw [goodVal, decide_eq_true_eq] at hg
  rw [writeValue]
  simp only [List.cons_append]
  rw [readValueF]
  simp only [ProtocolReader.readByte, readFloat_write bits hg rest]

theorem rtVal_vstr (s : List Nat) (fuel : Nat) (rest : List Nat) :
    readValueF (fuel + 1) (writeValue (.vstr s) ++ rest) = .ok (.vstr s, rest) := by
  rw [writeValue]
  simp only [List.cons_append]
  rw [readValueF]
  simp only [ProtocolReader.readByte, readString_write s rest]

theorem rtVal_vbytes (b : List Nat) (fuel : Nat) (rest : List Nat) :
    readValueF (fuel + 1) (writeValue (.vbytes b) ++ rest) =
      .ok (.vbytes b, rest) := by
  rw [writeValue]
  simp only [List.cons_append]
  rw [readValueF]
  simp only [ProtocolReader.readByte, readBytes_write b rest]


theorem rtMap_aux (entries : PEntries) (f : Nat) (rest : List Nat)
    (hent : readEntriesF f (PEntries.length entries) .nil
      (writeEntries entries ++ rest) = .ok (entries, rest)) :
    readValueF (f + 1)
      ((11 :: (VarInt.encode (PEntries.length entries) ++ writeEntries entries))
        ++ rest) = .ok (.vmap entries, rest) := by
  simp only [List.cons_append, List.append_assoc]
  rw [readValueF]
  simp only [ProtocolReader.readByte, readVarInt_encode, hent]

mutual
theorem rtVal : ∀ (v : PVal) (fuel : Nat) (rest : List Nat), goodVal v = true →
    fsizeVal v ≤ fuel → readValueF fuel (writeValue v ++ rest) = .ok (v, rest)
  | .vnull, fuel, rest, _, hf => by
      obtain ⟨f, rfl⟩ : ∃ f, fuel = f + 1 :=
        ⟨fuel - 1, by have := fsizeVal_pos PVal.vnull; omega⟩
      exact rtVal_vnull f rest
  | .vbool b, fuel, rest, _, hf => by
      obtain ⟨f, rfl⟩ : ∃ f, fuel = f + 1 :=
        ⟨fuel - 1, by have := fsizeVal_pos (PVal.vbool b); omega⟩
      exact rtVal_vbool b f rest
  | .vint i, fuel, rest, hg, hf => by
      obtain ⟨f, rfl⟩ : ∃ f, fuel = f + 1 :=
        ⟨fuel - 1, by have := fsizeVal_pos (PVal.vint i); omega⟩
      exact rtVal_vint i f rest hg
  | .vfloat bits, fuel, rest, hg, hf => by
      obtain ⟨f, rfl⟩ : ∃ f, fuel = f + 1 :=
        ⟨fuel - 1, by have := fsizeVal_pos (PVal.vfloat bits); omega⟩
      exact rtVal_vfloat bits f rest hg
  | .vdouble bits, fuel, rest, hg, _ => by
      rw [goodVal] at hg
      exact absurd hg (by simp)
  | .vstr s, fuel, rest, _, hf => by
      obtain ⟨f, rfl⟩ : ∃ f, fuel = f + 1 :=
        ⟨fuel - 1, by have := fsizeVal_pos (PVal.vstr s); omega⟩
      exact rtVal_vstr s f rest
  | .vbytes b, fuel, rest, _, hf => by
      obtain ⟨f, rfl⟩ : ∃ f, fuel = f + 1 :=
        ⟨fuel - 1, by have := fsizeVal_pos (PVal.vbytes b); omega⟩
      exact rtVal_vbytes b f rest
  | .varr items, fuel, rest, hg, hf => by
      rw [goodVal] at hg
      rw [fsizeVal] at hf
      obtain ⟨f, rfl⟩ : ∃ f, fuel = f + 1 := ⟨fuel - 1, by omega⟩
      rw [writeValue]
      simp only [List.cons_append, List.append_assoc]
      rw [readValueF]
      simp only [ProtocolReader.readByte, readVarInt_encode]
      rw [rtList items f rest hg (by omega)]
  | .vmap entries, fuel, rest, hg, hf => by
      rw [goodVal] at hg
      simp only [Bool.and_eq_true, Bool.or_eq_true] at hg
      obtain ⟨⟨hvals, hdist⟩, hvec⟩ := hg
      rw [fsizeVal] at hf
      obtain ⟨f, rfl⟩ : ∃ f, fuel = f + 1 := ⟨fuel - 1, by omega⟩
      have hmap : readValueF (f + 1)
          ((11 :: (VarInt.encode (PEntries.length entries) ++
            writeEntries entries)) ++ rest) = .ok (.vmap entries, rest) :=
        rtMap_aux entries f rest
          (rtEntries entries f .nil rest hvals hdist
            (fun k _ hk => by simp [PEntries.keys] at hk) (by omega))
      rcases hvec with hfree | hshape
      · rw [writeValue]
        cases hxv : lookupEntry entries xKey with
        | none =>
            cases hyv : lookupEntry entries yKey <;>
              cases hzv : lookupEntry entries zKey <;> exact hmap
        | some vx =>
            cases hyv : lookupEntry entries yKey with
            | none => cases hzv : lookupEntry entries zKey <;> exact hmap
            | some vy =>
                exfalso
                rw [isVecFree, hxv, hyv] at hfree
                simp at hfree
      · rcases isVecShape_characterization entries hshape with
          ⟨a, b, rfl⟩ | ⟨a, b, c, rfl⟩
        · simp only [goodEntriesVals, goodVal, allBytes, Bool.and_eq_true,
            decide_eq_true_eq] at hvals
          have ha : a < 4294967296 := hvals.1.2
          have hb : b < 4294967296 := hvals.2.1.2
          have hw : writeValue (.vmap (.cons xKey (.vfloat a)
              (.cons yKey (.vfloat b) .nil))) =
              12 :: (be4 (a % 4294967296) ++ be4 (b % 4294967296)) := rfl
          rw [hw, Nat.mod_eq_of_lt ha, Nat.mod_eq_of_lt hb]
          simp only [List.cons_append, List.append_assoc]
          rw [readValueF]
          simp only [ProtocolReader.readByte, readFloat_write a ha,
            readFloat_write b hb]
        · simp only [goodEntriesVals, goodVal, allBytes, Bool.and_eq_true,
            decide_eq_true_eq] at hvals
          have ha : a < 4294967296 := hvals.1.2
          have hb : b < 4294967296 := hvals.2.1.2
          have hc : c < 4294967296 := hvals.2.2.1.2
          have hw : writeValue (.vmap (.cons xKey (.vfloat a)
              (.cons yKey (.vfloat b) (.cons zKey (.vfloat c) .nil)))) =
              13 :: (be4 (a % 4294967296) ++ be4 (b % 4294967296) ++
                be4 (c % 4294967296)) := rfl
          rw [hw, Nat.mod_eq_of_lt ha, Nat.mod_eq_of_lt hb, Nat.mod_eq_of_lt hc]
          simp only [List.cons_append, List.append_assoc]
          rw [readValueF]
          simp only [ProtocolReader.readByte, readFloat_write a ha,
            readFloat_write b hb, readFloat_write c hc]

theorem rtList : ∀ (l : PList) (fuel : Nat) (rest : List Nat),
    goodList l = true → fsizeList l ≤ fuel →
    readListF fuel (PList.length l) (writeList l ++ rest) = .ok (l, rest)
  | .nil, fuel, rest, _, _ => by
      rw [PList.length, writeList, List.nil_append]
      cases fuel <;> rfl
  | .cons v t, fuel, rest, hg, hf => by
      rw [goodList] at hg
      simp only [Bool.and_eq_true] at hg
      rw [fsizeList] at hf
      obtain ⟨f, rfl⟩ : ∃ f, fuel = f + 1 := ⟨fuel - 1, by omega⟩
      rw [PList.length, writeList, List.append_assoc, readListF]
      simp only [rtVal v f (writeList t ++ rest) hg.1 (by omega),
        rtList t f rest hg.2 (by omega)]

theorem rtEntries : ∀ (e : PEntries) (fuel : Nat) (acc : PEntries)
    (rest : List Nat), goodEntriesVals e = true → keysDistinct e = true →
    (∀ k, k ∈ PEntries.keys e → k ∉ PEntries.keys acc) →
    fsizeEntries e ≤ fuel →
    readEntriesF fuel (PEntries.length e) acc (writeEntries e ++ rest) =
      .ok (PEntries.append acc e, rest)
  | .nil, fuel, acc, rest, _, _, _, _ => by
      rw [PEntries.length, writeEntries, List.nil_append, PEntries.append_nil]
      cases fuel <;> rfl
  | .cons k v t, fuel, acc, rest, hg, hd, hdisj, hf => by
      rw [goodEntriesVals] at hg
      simp only [Bool.and_eq_true] at hg
      obtain ⟨⟨hkb, hvg⟩, htg⟩ := hg
      rw [keysDistinct] at hd
      simp only [Bool.and_eq_true, Bool.not_eq_true'] at hd
      obtain ⟨hknot, htd⟩ := hd
      have hknotmem : k ∉ PEntries.keys t := by
        simpa using hknot
      rw [fsizeEntries] at hf
      obtain ⟨f, rfl⟩ : ∃ f, fuel = f + 1 := ⟨fuel - 1, by omega⟩
      rw [PEntries.length, writeEntries, List.append_assoc, List.append_assoc,
        readEntriesF]
      simp only [readString_write,
        rtVal v f (writeEntries t ++ rest) hvg (by omega)]
      have hkfresh : k ∉ PEntries.keys acc :=
        hdisj k (by rw [PEntries.keys]; exact List.mem_cons_self ..)
      rw [insertJS_fresh acc k v hkfresh]
      have hdisj2 : ∀ k2, k2 ∈ PEntries.keys t →
          k2 ∉ PEntries.keys (PEntries.append acc (.cons k v .nil)) := by
        intro k2 hk2
        rw [keys_append]
        simp only [List.mem_append, PEntries.keys, List.mem_cons,
          List.not_mem_nil, or_false, not_or]
        constructor
        · exact hdisj k2 (by rw [PEntries.keys]; exact List.mem_cons_of_mem _ hk2)
        · intro heq
          exact hknotmem (heq ▸ hk2)
      simp only [rtEntries t f (PEntries.append acc (.cons k v .nil)) rest htg
        htd hdisj2 (by omega)]
      rw [PEntries.append_assoc]
      rfl
end


theorem writeValue_length_pos : ∀ v : PVal, 1 ≤ (writeValue v).length
  | .vnull => by simp [writeValue]
  | .vbool b => by simp [writeValue]
  | .vint i => by
      rw [writeValue]
      split
      · simp
      · split
        · simp
        · split <;> simp
  | .vfloat bits => by simp [writeValue]
  | .vdouble bits => by simp [writeValue]
  | .vstr s => by simp [writeValue]
  | .vbytes b => by simp [writeValue]
  | .varr items => by simp [writeValue]
  | .vmap entries => by
      rw [writeValue]
      cases lookupEntry entries xKey <;> cases lookupEntry entries yKey <;>
        cases lookupEntry entries zKey <;> simp

theorem be2_bytes (u : Nat) : allBytes (be2 u) = true := by
  simp [be2, allBytes]
  omega

theorem be4_bytes (u : Nat) : allBytes (be4 u) = true := by
  simp [be4, allBytes]
  omega

theorem be8_bytes (u : Nat) : allBytes (be8 u) = true := by
  rw [be8, allBytes_append, be4_bytes, be4_bytes]
  rfl

theorem varIntEncode_bytes (n : Nat) : allBytes (VarInt.encode n) = true :=
  varIntEncodeAux_bytes n n

theorem writeString_bytes (s : List Nat) (hs : allBytes s = true) :
    allBytes (ProtocolWriter.writeString s) = true := by
  rw [ProtocolWriter.writeString]
  split
  · exact varIntEncode_bytes 0
  · rw [allBytes_append, varIntEncode_bytes, hs]
    rfl

mutual
theorem writeValue_bytes : ∀ v : PVal, goodVal v = true →
    allBytes (writeValue v) = true
  | .vnull, _ => by decide
  | .vbool b, _ => by cases b <;> decide
  | .vint i, hg => by
      rw [goodVal] at hg
      simp only [Bool.or_eq_true, Bool.and_eq_true, decide_eq_true_eq] at hg
      rw [writeValue]
      by_cases hlong : 2147483647 < i ∨ i < -2147483648
      · rw [if_pos hlong]
        have hpos : 0 ≤ i := by omega
        simp only [allBytes, List.all_cons, Bool.and_eq_true, decide_eq_true_eq]
        refine ⟨by omega, ?_⟩
        rw [VarLong.encode, varLongEncodeAux_eq_varIntEncodeAux _ i hpos]
        exact varIntEncodeAux_bytes _ _
      · rw [if_neg hlong]
        by_cases hbyte : -128 ≤ i ∧ i ≤ 127
        · rw [if_pos hbyte]
          simp [allBytes]
          omega
        · rw [if_neg hbyte]
          by_cases hshort : -32768 ≤ i ∧ i ≤ 32767
          · rw [if_pos hshort]
            simp only [allBytes, List.all_cons, Bool.and_eq_true,
              decide_eq_true_eq]
            constructor
            · omega
            · have := be2_bytes (i % 65536).toNat
              simpa [allBytes] using this
          · rw [if_neg hshort]
            simp only [allBytes, List.all_cons, Bool.and_eq_true,
              decide_eq_true_eq]
            constructor
            · omega
            · have := be4_bytes (i % 4294967296).toNat
              simpa [allBytes] using this
  | .vfloat bits, _ => by
      rw [writeValue]
      simp only [allBytes, List.all_cons, Bool.and_eq_true, decide_eq_true_eq]
      constructor
      · omega
      · have := be4_bytes bits
        simpa [allBytes] using this
  | .vdouble bits, hg => by
      rw [goodVal] at hg
      exact absurd hg (by simp)
  | .vstr s, hg => by
      rw [goodVal] at hg
      rw [writeValue]
      simp only [allBytes, List.all_cons, Bool.and_eq_true, decide_eq_true_eq]
      constructor
      · omega
      · have := writeString_bytes s hg
        simpa [allBytes] using this
  | .vbytes b, hg => by
      rw [goodVal] at hg
      rw [writeValue, ProtocolWriter.writeBytes]
      simp only [allBytes, List.all_cons, List.all_append, Bool.and_eq_true,
        decide_eq_true_eq]
      refine ⟨by omega, ?_, ?_⟩
      · have := varIntEncode_bytes b.length
        simpa [allBytes] using this
      · simpa [allBytes] using hg
  | .varr items, hg => by
      rw [goodVal] at hg
      rw [writeValue]
      simp only [allBytes, List.all_cons, List.all_append, Bool.and_eq_true,
        decide_eq_true_eq]
      refine ⟨by omega, ?_, ?_⟩
      · have := varIntEncode_bytes (PList.length items)
        simpa [allBytes] using this
      · have := writeList_bytes items hg
        simpa [allBytes] using this
  | .vmap entries, hg => by
      rw [goodVal] at hg
      simp only [Bool.and_eq_true, Bool.or_eq_true] at hg
      obtain ⟨⟨hvals, _⟩, _⟩ := hg
      rw [writeValue]
      have hmapArm : allBytes
          (11 :: (VarInt.encode (PEntries.length entries) ++
            writeEntries entries)) = true := by
        simp only [allBytes, List.all_cons, List.all_append, Bool.and_eq_true,
          decide_eq_true_eq]
        refine ⟨by omega, ?_, ?_⟩
        · have := varIntEncode_bytes (PEntries.length entries)
          simpa [allBytes] using this
        · have := writeEntries_bytes entries hvals
          simpa [allBytes] using this
      cases lookupEntry entries xKey with
      | none =>
          cases lookupEntry entries yKey <;> cases lookupEntry entries zKey <;>
            exact hmapArm
      | some vx =>
          cases lookupEntry entries yKey with
          | none => cases lookupEntry entries zKey <;> exact hmapArm
          | some vy =>
              cases lookupEntry entries zKey with
              | none =>
                  show allBytes (12 :: (be4 (f32PatternOf vx) ++
                    be4 (f32PatternOf vy))) = true
                  rw [show (12 : Nat) :: (be4 (f32PatternOf vx) ++
                      be4 (f32PatternOf vy)) = [12] ++ (be4 (f32PatternOf vx) ++
                      be4 (f32PatternOf vy)) from rfl, allBytes_append,
                    allBytes_append, be4_bytes, be4_bytes]
                  rfl
              | some vz =>
                  show allBytes (13 :: (be4 (f32PatternOf vx) ++
                    be4 (f32PatternOf vy) ++ be4 (f32PatternOf vz))) = true
                  rw [show (13 : Nat) :: (be4 (f32PatternOf vx) ++
                      be4 (f32PatternOf vy) ++ be4 (f32PatternOf vz)) =
                      [13] ++ (be4 (f32PatternOf vx) ++ be4 (f32PatternOf vy) ++
                      be4 (f32PatternOf vz)) from rfl, allBytes_append,
                    allBytes_append, allBytes_append, be4_bytes, be4_bytes,
                    be4_bytes]
                  rfl

theorem writeList_bytes : ∀ l : PList, goodList l = true →
    allBytes (writeList l) = true
  | .nil, _ => rfl
  | .cons v t, hg => by
      rw [goodList] at hg
      simp only [Bool.and_eq_true] at hg
      rw [writeList, allBytes_append, writeValue_bytes v hg.1,
        writeList_bytes t hg.2]
      rfl

theorem writeEntries_bytes : ∀ e : PEntries, goodEntriesVals e = true →
    allBytes (writeEntries e) = true
  | .nil, _ => rfl
  | .cons k v t, hg => by
      rw [goodEntriesVals] at hg
      simp only [Bool.and_eq_true] at hg
      obtain ⟨⟨hkb, hvg⟩, htg⟩ := hg
      rw [writeEntries, allBytes_append, allBytes_append,
        writeString_bytes k hkb, writeValue_bytes v hvg,
        writeEntries_bytes t htg]
      rfl
end


mutual
theorem fsizeVal_le : ∀ v : PVal, goodVal v = true →
    fsizeVal v ≤ (writeValue v).length
  | .vnull, _ => writeValue_length_pos .vnull
  | .vbool b, _ => writeValue_length_pos (.vbool b)
  | .vint i, _ => writeValue_length_pos (.vint i)
  | .vfloat bits, _ => writeValue_length_pos (.vfloat bits)
  | .vdouble bits, _ => writeValue_length_pos (.vdouble bits)
  | .vstr s, _ => writeValue_length_pos (.vstr s)
  | .vbytes b, _ => writeValue_length_pos (.vbytes b)
  | .varr items, hg => by
      rw [goodVal] at hg
      rw [fsizeVal, writeValue]
      have h1 := fsizeList_le items hg
      have h2 := VarInt.encode_length_pos (PList.length items)
      simp only [List.length_cons, List.length_append]
      omega
  | .vmap entries, hg => by
      rw [goodVal] at hg
      simp only [Bool.and_eq_true, Bool.or_eq_true] at hg
      obtain ⟨⟨hvals, hdist⟩, hvec⟩ := hg
      rw [fsizeVal]
      rcases hvec with hfree | hshape
      · have h1 := fsizeEntries_le entries hvals
        have h2 := VarInt.encode_length_pos (PEntries.length entries)
        have harm : (writeValue (.vmap entries)).length =
            (11 :: (VarInt.encode (PEntries.length entries) ++
              writeEntries entries)).length := by
          rw [writeValue]
          cases hxv : lookupEntry entries xKey with
          | none =>
              cases lookupEntry entries yKey <;>
                cases lookupEntry entries zKey <;> rfl
          | some vx =>
              cases hyv : lookupEntry entries yKey with
              | none => cases lookupEntry entries zKey <;> rfl
              | some vy =>
                  exfalso
                  rw [isVecFree, hxv, hyv] at hfree
                  simp at hfree
        rw [harm]
        simp only [List.length_cons, List.length_append]
        omega
      · rcases isVecShape_characterization entries hshape with
          ⟨a, b, rfl⟩ | ⟨a, b, c, rfl⟩
        · have hw : (writeValue (.vmap (.cons xKey (.vfloat a)
              (.cons yKey (.vfloat b) .nil)))).length = 9 := by
            rw [show writeValue (.vmap (.cons xKey (.vfloat a)
              (.cons yKey (.vfloat b) .nil))) =
              12 :: (be4 (a % 4294967296) ++ be4 (b % 4294967296)) from rfl]
            rfl
          rw [hw]
          rw [show fsizeEntries (.cons xKey (.vfloat a)
            (.cons yKey (.vfloat b) .nil)) = 3 from rfl]
          omega
        · have hw : (writeValue (.vmap (.cons xKey (.vfloat a)
              (.cons yKey (.vfloat b) (.cons zKey (.vfloat c) .nil))))).length
              = 13 := by
            rw [show writeValue (.vmap (.cons xKey (.vfloat a)
              (.cons yKey (.vfloat b) (.cons zKey (.vfloat c) .nil)))) =
              13 :: (be4 (a % 4294967296) ++ be4 (b % 4294967296) ++
                be4 (c % 4294967296)) from rfl]
            rfl
          rw [hw]
          rw [show fsizeEntries (.cons xKey (.vfloat a)
            (.cons yKey (.vfloat b) (.cons zKey (.vfloat c) .nil))) = 4
            from rfl]
          omega

theorem fsizeList_le : ∀ l : PList, goodList l = true →
    fsizeList l ≤ (writeList l).length + 1
  | .nil, _ => by simp [fsizeList, writeList]
  | .cons v t, hg => by
      rw [goodList] at hg
      simp only [Bool.and_eq_true] at hg
      rw [fsizeList, writeList]
      have h1 := fsizeVal_le v hg.1
      have h2 := fsizeList_le t hg.2
      have h3 := writeValue_length_pos v
      simp only [List.length_append]
      omega

theorem fsizeEntries_le : ∀ e : PEntries, goodEntriesVals e = true →
    fsizeEntries e ≤ (writeEntries e).length + 1
  | .nil, _ => by simp [fsizeEntries, writeEntries]
  | .cons k v t, hg => by
      rw [goodEntriesVals] at hg
      simp only [Bool.and_eq_true] at hg
      obtain ⟨⟨hkb, hvg⟩, htg⟩ := hg
      rw [fsizeEntries, writeEntries]
      have h1 := fsizeVal_le v hvg
      have h2 := fsizeEntries_le t htg
      have h3 := writeValue_length_pos v
      have h4 := writeString_length_pos k
      simp only [List.length_append]
      omega
end


theorem writeMap_bytes (data : PEntries) (h : goodEntriesVals data = true) :
    allBytes (ProtocolWriter.writeMap data) = true := by
  rw [ProtocolWriter.writeMap, allBytes_append, varIntEncode_bytes,
    writeEntries_bytes data h]
  rfl

theorem packet_roundtrip_plain (op : Nat) (data : PEntries)
    (hop : op < 256) (hd : goodPacketData data = true) :
    Packet.parse (Packet.create op data false) = .ok (op, data, false) := by
  rw [goodPacketData] at hd
  simp only [Bool.and_eq_true] at hd
  obtain ⟨hvals, hdist⟩ := hd
  rw [Packet.create]
  simp only [if_neg (Bool.false_ne_true)]
  have hread : ∀ (l r : List Nat), ProtocolReader.read l.length (l ++ r) =
      .ok (l, r) := by
    intro l r
    rw [ProtocolReader.read, if_pos (by simp), List.take_left, List.drop_left]
  rw [Packet.parse]
  simp only [List.cons_append, List.nil_append, List.append_assoc,
    ProtocolReader.readByte, liftDec, bind, Except.bind, readVarInt_encode,
    hread, ne_eq, OfNat.ofNat_ne_zero, not_false_eq_true, or_false, or_self,
    if_false, ite_false, not_true, not_true_eq_false]
  set wm := ProtocolWriter.writeMap data with hwm
  set pd : List Nat := 66 :: 78 :: 1 :: 0 :: op % 256 ::
    (VarInt.encode wm.length ++ wm) with hpd
  set ck := Checksum.calculate pd % 256 with hck
  have hbuf : (66 :: 78 :: 1 :: 0 :: op % 256 ::
      (VarInt.encode wm.length ++ (wm ++ [ck]))) = pd ++ [ck] := by
    simp [hpd, List.append_assoc]
  rw [hbuf]
  have hflag : ((0 &&& 1 : Nat) != 0) = false := rfl
  rw [hflag]
  simp only [Bool.false_eq_true, if_false]
  have hlen1 : (pd ++ [ck]).length - 1 = pd.length := by simp
  rw [hlen1, List.take_left, hck, Nat.mod_eq_of_lt (checksum_calculate_lt pd),
    Checksum.verify]
  simp only [beq_self_eq_true, not_true_eq_false, if_false]
  rw [ProtocolReader.readMap, hwm, ProtocolWriter.writeMap]
  simp only [readVarInt_encode]
  have hfuel : fsizeEntries data ≤ (pd ++ [Checksum.calculate pd]).length + 1 := by
    have hb1 := fsizeEntries_le data hvals
    have hb2 : wm.length = (VarInt.encode (PEntries.length data)).length +
        (writeEntries data).length := by
      rw [hwm, ProtocolWriter.writeMap, List.length_append]
    have hb3 : pd.length = 5 + ((VarInt.encode wm.length).length + wm.length) := by
      rw [hpd]
      simp [List.length_append]
      omega
    have hb4 : (pd ++ [Checksum.calculate pd]).length = pd.length + 1 := by simp
    omega
  have hrt := rtEntries data ((pd ++ [Checksum.calculate pd]).length + 1) .nil []
    hvals hdist (fun k hk => by simp [PEntries.keys]) hfuel
  rw [List.append_nil] at hrt
  rw [show PEntries.append .nil data = data from rfl] at hrt
  simp only [hrt, liftDec]
  rw [Nat.mod_eq_of_lt hop]
  rfl


theorem packet_roundtrip_enc (op : Nat) (data : PEntries)
    (hop : op < 256) (hd : goodPacketData data = true) :
    Packet.parse (Packet.create op data true) = .ok (op, data, true) := by
  rw [goodPacketData] at hd
  simp only [Bool.and_eq_true] at hd
  obtain ⟨hvals, hdist⟩ := hd
  have hwmB : allBytes (ProtocolWriter.writeMap data) = true :=
    writeMap_bytes data hvals
  have hread : ∀ (l r : List Nat), ProtocolReader.read l.length (l ++ r) =
      .ok (l, r) := by
    intro l r
    rw [ProtocolReader.read, if_pos (by simp), List.take_left, List.drop_left]
  rw [Packet.create]
  simp only [if_pos rfl]
  rw [Packet.parse]
  simp only [List.cons_append, List.nil_append, List.append_assoc,
    ProtocolReader.readByte, liftDec, bind, Except.bind, readVarInt_encode,
    hread, ne_eq, OfNat.ofNat_ne_zero, not_false_eq_true, or_false, or_self,
    if_false, ite_false, not_true, not_true_eq_false, if_true, ite_true]
  set wm := ProtocolWriter.writeMap data with hwm
  set ep := Cipher.encrypt defaultCipherKey wm with hep
  set pd : List Nat := 66 :: 78 :: 1 :: 1 :: op % 256 ::
    (VarInt.encode ep.length ++ ep) with hpd
  set ck := Checksum.calculate pd % 256 with hck
  have hbuf : (66 :: 78 :: 1 :: 1 :: op % 256 ::
      (VarInt.encode ep.length ++ (ep ++ [ck]))) = pd ++ [ck] := by
    simp [hpd, List.append_assoc]
  rw [hbuf]
  have hflag : ((1 &&& 1 : Nat) != 0) = true := rfl
  rw [hflag]
  simp only [if_true, ite_true]
  rw [hep, cipher_encrypt_decrypt defaultCipherKey wm hwmB]
  have hlen1 : (pd ++ [ck]).length - 1 = pd.length := by simp
  rw [hlen1, List.take_left, hck, Nat.mod_eq_of_lt (checksum_calculate_lt pd),
    Checksum.verify]
  simp only [beq_self_eq_true, not_true_eq_false, if_false]
  rw [ProtocolReader.readMap, hwm, ProtocolWriter.writeMap]
  simp only [readVarInt_encode]
  have hfuel : fsizeEntries data ≤
      (pd ++ [Checksum.calculate pd]).length + 1 := by
    have hb1 := fsizeEntries_le data hvals
    have hb2 : wm.length = (VarInt.encode (PEntries.length data)).length +
        (writeEntries data).length := by
      rw [hwm, ProtocolWriter.writeMap, List.length_append]
    have hb2e : ep.length = wm.length := by
      rw [hep, Cipher.encrypt, cipherStream_length]
    have hb3 : pd.length = 5 + ((VarInt.encode ep.length).length + ep.length) := by
      rw [hpd]
      simp [List.length_append]
      omega
    have hb4 : (pd ++ [Checksum.calculate pd]).length = pd.length + 1 := by simp
    omega
  have hrt := rtEntries data ((pd ++ [Checksum.calculate pd]).length + 1) .nil []
    hvals hdist (fun k hk => by simp [PEntries.keys]) hfuel
  rw [List.append_nil] at hrt
  rw [show PEntries.append .nil data = data from rfl] at hrt
  simp only [hrt, liftDec]
  rw [Nat.mod_eq_of_lt hop]
  rfl


/-- Counterexample to claim C1 as stated: the payload map `{"k": -1}` is
representable in the Typed Value model (a byte-range integer), but
`writeByte` stores `-1` as its two's-complement byte `0xFF` and `readByte`
reads it back unsigned, so the packet parses to `{"k": 255}`, not
`{"k": -1}`. -/
theorem packet_roundtrip_counterexample :
    Packet.parse (Packet.create 71 (.cons [107] (.vint (-1)) .nil) false) =
        .ok (71, .cons [107] (.vint 255) .nil, false) ∧
      Packet.parse (Packet.create 71 (.cons [107] (.vint (-1)) .nil) false) ≠
        .ok (71, .cons [107] (.vint (-1)) .nil, false) := by
  constructor
  · rfl
  · rw [show Packet.parse (Packet.create 71 (.cons [107] (.vint (-1)) .nil)
      false) = .ok (71, .cons [107] (.vint 255) .nil, false) from rfl]
    intro h
    simp only [Except.ok.injEq, Prod.mk.injEq, PEntries.cons.injEq,
      PVal.vint.injEq, and_true, true_and] at h
    omega

/-- Claim C1 as amended: the round-trip law
`parse (create op data enc) = (op, data, enc)` holds for every opcode below
256, both cipher flags, and every payload in the round-trippable fragment
`goodPacketData`: values restricted to integers in `[0, 2^53]` or
`[-2^31, -129]` (excluding the byte-range negatives `[-128, -1]`, which come
back unsigned, and anything below `-2^31`, which `VarLong.encode` misencodes),
32-bit float patterns, byte-valued strings and blobs, arrays and maps of such
values with distinct keys, where nested maps either lack one of the keys
`"x"`/`"y"` or are exactly float-valued `Vec2`/`Vec3` shapes (any other
`x`/`y`-keyed map is forced through the lossy float vector encoding). -/
theorem packet_roundtrip_amended (op : Nat) (data : PEntries) (enc : Bool)
    (hop : op < 256) (hd : goodPacketData data = true) :
    Packet.parse (Packet.create op data enc) = .ok (op, data, enc) := by
  cases enc
  · exact packet_roundtrip_plain op data hop hd
  · exact packet_roundtrip_enc op data hop hd

/-- Witness for the amended C1: an encrypted AUTH packet with an INT-range
value round-trips. -/
theorem packet_roundtrip_amended_witness :
    ((146 : Nat) < 256 ∧
        goodPacketData (.cons [110] (.vint 1000000) .nil) = true) ∧
      Packet.parse (Packet.create 146 (.cons [110] (.vint 1000000) .nil) true) =
        .ok (146, .cons [110] (.vint 1000000) .nil, true) :=
  ⟨⟨by decide, by decide⟩,
    packet_roundtrip_amended 146 (.cons [110] (.vint 1000000) .nil) true
      (by decide) (by decide)⟩

/-! ### Claim C2: multi-packet draining -/

/-- Claim C2 evaluated at its failing input: a single `PING` packet parses
fine, but the concatenation of two such valid packets fails to parse at all —
`Packet.parse` verifies the checksum over the whole buffer minus its final
byte, which spans both packets — and the bridge's data handler thereupon
clears the entire buffer and forwards zero messages, instead of delivering
two messages and consuming only the first packet's bytes. -/
theorem bridge_concatenated_packets_dropped :
    Packet.parse (Packet.create 51 .nil false) = .ok (51, .nil, false) ∧
      Packet.parse (Packet.create 51 .nil false ++ Packet.create 51 .nil false)
        = .error .checksumMismatch ∧
      bridgeOnData [] (Packet.create 51 .nil false ++ Packet.create 51 .nil false)
        = ([], []) :=
  ⟨rfl, rfl, rfl⟩

end NyxNet
